import Mathlib

/-!
Shallow embedding of the odds-aggregation gateway (Python sources under
`src/`) used to settle the frozen claims about the specification.

The embedding models strings as `List Char` / `String`, Python floats as
`ℚ` (exact arithmetic), Python dynamic values as the `JVal` inductive,
and code that can raise as `Except`-valued functions.  Python's
`re.sub` calls are modelled by a small scanning engine (`subAll`) with
one matcher per concrete pattern appearing in the source.
-/

set_option maxRecDepth 20000

namespace Predictable

/-- Characters Python's `str.strip()` removes (ASCII whitespace, as used by
the feeds this program handles). -/
def pySpace (c : Char) : Bool :=
  c = ' ' || c = '\t' || c = '\n' || c = '\r' || c = '\x0b' || c = '\x0c'

def isDigitC (c : Char) : Bool := '0' ≤ c && c ≤ '9'

def isLowerC (c : Char) : Bool := 'a' ≤ c && c ≤ 'z'

def isUpperC (c : Char) : Bool := 'A' ≤ c && c ≤ 'Z'

/-- A character matched by the regex class `[a-z0-9]`. -/
def isAlnumLower (c : Char) : Bool := isLowerC c || isDigitC c

/-- ASCII word character, for the regex `\b` boundary checks. -/
def isWordC (c : Char) : Bool := isLowerC c || isUpperC c || isDigitC c || c = '_'

/-- ASCII lower-casing, modelling Python `str.lower()` on the ASCII range. -/
def lowerC (c : Char) : Char := if isUpperC c then Char.ofNat (c.toNat + 32) else c

def lowerL (l : List Char) : List Char := l.map lowerC

/-- Python `str.strip()` on a character list. -/
def stripL (l : List Char) : List Char :=
  ((l.dropWhile pySpace).reverse.dropWhile pySpace).reverse

/-- Python `str.replace(p, r)`: replace every non-overlapping occurrence of
`p`, scanning left to right.  `skip` counts characters still to drop
because they belonged to the previous match (kept structural so the
kernel can evaluate it). -/
def pyRepAux (p r : List Char) (skip : Nat) : List Char → List Char
  | [] => []
  | c :: cs =>
    match skip with
    | n + 1 => pyRepAux p r n cs
    | 0 =>
      if p ≠ [] ∧ p.isPrefixOf (c :: cs) then
        r ++ pyRepAux p r (p.length - 1) cs
      else
        c :: pyRepAux p r 0 cs

def pyReplace (p r l : List Char) : List Char := pyRepAux p r 0 l

/-- Python substring membership `p in s`. -/
def containsSub (p : List Char) : List Char → Bool
  | [] => p.isPrefixOf []
  | c :: cs => p.isPrefixOf (c :: cs) || containsSub p cs

/-- First alternative (in order) on which `f` succeeds, as in regex
alternation. -/
def firstSome {α β : Type} (f : α → Option β) : List α → Option β
  | [] => none
  | a :: as =>
    match f a with
    | some b => some b
    | none => firstSome f as

/-- Consume a literal, returning the rest of the input. -/
def litP (pat l : List Char) : Option (List Char) :=
  if pat.isPrefixOf l then some (l.drop pat.length) else none

/-- Consume one-or-more whitespace characters (`\s+`, maximal munch). -/
def spaces1 (l : List Char) : Option (List Char) :=
  let rest := l.dropWhile pySpace
  if rest.length < l.length then some rest else none

/-- `\b` on the left of a match: start of string or a non-word character. -/
def boundaryBefore (prev : Option Char) : Bool :=
  match prev with
  | none => true
  | some c => !(isWordC c)

/-- `\b` on the right of a match: end of string or a non-word character. -/
def boundaryAfter (l : List Char) : Bool :=
  match l with
  | [] => true
  | c :: _ => !(isWordC c)

/-- Matcher for `\b(alt₁|alt₂)\s+word\b` (the ordinal-period patterns of
`canon_market_text`).  Returns the input remaining after the match. -/
def matchOrdinal (alts : List (List Char)) (word : List Char)
    (prev : Option Char) (l : List Char) : Option (List Char) :=
  if boundaryBefore prev then
    match firstSome (fun a => litP a l) alts with
    | some l1 =>
      match spaces1 l1 with
      | some l2 =>
        match litP word l2 with
        | some l3 => if boundaryAfter l3 then some l3 else none
        | none => none
      | none => none
    | none => none
  else none

/-- Matcher for `\btok\b` (the short-token patterns `1h`, `2h`, `q1`–`q4`). -/
def matchTok (tok : List Char) (prev : Option Char) (l : List Char) :
    Option (List Char) :=
  if boundaryBefore prev then
    match litP tok l with
    | some l1 => if boundaryAfter l1 then some l1 else none
    | none => none
  else none

/-- `re.sub` over a character list: scan left to right, replacing each
non-overlapping match of `m` with `r` and continuing after it in the
original input.  `prev` is the character just before the scan position
(for `\b`); `skip` counts characters of the current match still to be
consumed.  All matchers used consume at least one character. -/
def subAllAux (m : Option Char → List Char → Option (List Char)) (r : List Char)
    (skip : Nat) (prev : Option Char) : List Char → List Char
  | [] => []
  | c :: cs =>
    match skip with
    | n + 1 => subAllAux m r n (some c) cs
    | 0 =>
      match m prev (c :: cs) with
      | some rest => r ++ subAllAux m r ((c :: cs).length - rest.length - 1) (some c) cs
      | none => c :: subAllAux m r 0 (some c) cs

def subAll (m : Option Char → List Char → Option (List Char)) (r : List Char)
    (prev : Option Char) (l : List Char) : List Char := subAllAux m r 0 prev l

/-- `canon_market_text` from `src/calculations/normalize.py` (identical copy
in `src/server/filters.py`), over character lists. -/
def canonList (l : List Char) : List Char :=
  let s0 := stripL (lowerL l)
  let s1 := subAll (matchOrdinal ["first".toList, "1st".toList] "quarter".toList) " q1 ".toList none s0
  let s2 := subAll (matchOrdinal ["second".toList, "2nd".toList] "quarter".toList) " q2 ".toList none s1
  let s3 := subAll (matchOrdinal ["third".toList, "3rd".toList] "quarter".toList) " q3 ".toList none s2
  let s4 := subAll (matchOrdinal ["fourth".toList, "4th".toList] "quarter".toList) " q4 ".toList none s3
  let s5 := subAll (matchOrdinal ["first".toList, "1st".toList] "half".toList) " h1 ".toList none s4
  let s6 := subAll (matchOrdinal ["second".toList, "2nd".toList] "half".toList) " h2 ".toList none s5
  let s7 := subAll (matchTok "1h".toList) " h1 ".toList none s6
  let s8 := subAll (matchTok "2h".toList) " h2 ".toList none s7
  let s9 := subAll (matchTok "q1".toList) " q1 ".toList none s8
  let s10 := subAll (matchTok "q2".toList) " q2 ".toList none s9
  let s11 := subAll (matchTok "q3".toList) " q3 ".toList none s10
  let s12 := subAll (matchTok "q4".toList) " q4 ".toList none s11
  let s13 := pyReplace "quarter".toList " ".toList s12
  let s14 := pyReplace "half".toList " ".toList s13
  let s15 := pyReplace "points".toList " ".toList s14
  let s16 := pyReplace "point".toList " ".toList s15
  let s17 := pyReplace "pts".toList " ".toList s16
  let s18 := pyReplace "team total points".toList " team total ".toList s17
  let s19 := pyReplace "team points".toList " team total ".toList s18
  s19.filter isAlnumLower

/-- `canon_market_text(x)` on strings. -/
def canon_market_text (s : String) : String := ⟨canonList s.data⟩

example : canon_market_text "First Quarter Moneyline" = "q1moneyline" := by decide
example : canon_market_text "1 h" = "1h" := by decide
example : canon_market_text "1h" = "h1" := by decide
example : canon_market_text "h alf" = "half" := by decide
example : canon_market_text "half" = "" := by decide
example : canon_market_text "team total points" = "teamtotal" := by decide

/-- Python `str.strip()`. -/
def pyStrip (s : String) : String := ⟨stripL s.data⟩

/-- Python `str.lower()` (ASCII range). -/
def pyLower (s : String) : String := ⟨lowerL s.data⟩

/-- `normalize_market` from `src/calculations/normalize.py`:
`(m or "").strip().lower()` for a string argument. -/
def normalize_market (m : String) : String := pyLower (pyStrip m)

/-- `is_nonexclusive_market` from `src/calculations/normalize.py`. -/
def is_nonexclusive_market (market_norm : String) : Bool :=
  let s := (pyLower market_norm).data
  let hit1 := containsSub "scorer".toList s || containsSub "to score".toList s ||
    containsSub "touchdown".toList s || containsSub "goalscorer".toList s ||
    containsSub "home run".toList s
  let first1 := containsSub "first".toList s || containsSub "1st".toList s
  if hit1 && !first1 then true
  else
    containsSub "anytime".toList s &&
      (containsSub "td".toList s || containsSub "touchdown".toList s ||
       containsSub "goal".toList s || containsSub "home run".toList s ||
       containsSub "scorer".toList s)

/-- Case-insensitive literal consumption (for patterns compiled with
`re.IGNORECASE`). -/
def litPI (pat l : List Char) : Option (List Char) :=
  if (pat.map lowerC).isPrefixOf (l.map lowerC) then some (l.drop pat.length) else none

/-- Suffix test for `\s+(?:over|under)\s+[+\-]?\d+(?:\.\d+)?$` (IGNORECASE):
does the whole input match? -/
def ouNumSuffix (l : List Char) : Bool :=
  match spaces1 l with
  | none => false
  | some l1 =>
    match firstSome (fun a => litPI a l1) ["over".toList, "under".toList] with
    | none => false
    | some l2 =>
      match spaces1 l2 with
      | none => false
      | some l3 =>
        let l4 := match l3 with
          | c :: cs => if c = '+' || c = '-' then cs else l3
          | [] => l3
        let digits := l4.takeWhile isDigitC
        let l5 := l4.dropWhile isDigitC
        if digits.isEmpty then false
        else
          match l5 with
          | [] => true
          | '.' :: r =>
            let d2 := r.takeWhile isDigitC
            let l6 := r.dropWhile isDigitC
            !d2.isEmpty && l6.isEmpty
          | _ => false

/-- Suffix test for `\s+moneyline$` (IGNORECASE). -/
def moneylineSuffix (l : List Char) : Bool :=
  match spaces1 l with
  | none => false
  | some l1 =>
    match litPI "moneyline".toList l1 with
    | some [] => true
    | _ => false

/-- Suffix test for `\s+\([^)]*\)$`. -/
def parenSuffix (l : List Char) : Bool :=
  match spaces1 l with
  | none => false
  | some l1 =>
    match l1 with
    | '(' :: r =>
      match r.getLast? with
      | some ')' => !containsSub [')'] r.dropLast
      | _ => false
    | _ => false

/-- `re.sub(pat, "", s)` for a `$`-anchored pattern: remove the suffix
starting at the leftmost position where the rest of the string matches. -/
def removeSuffixBy (p : List Char → Bool) : List Char → List Char
  | [] => []
  | c :: cs => if p (c :: cs) then [] else c :: removeSuffixBy p cs

/-- `clean_outcome_team_name` from `src/calculations/normalize.py`. -/
def clean_outcome_team_name (name : String) : String :=
  let s := stripL name.data
  if s.isEmpty then ""
  else
    let s := removeSuffixBy ouNumSuffix s
    let s := removeSuffixBy moneylineSuffix s
    let s := removeSuffixBy parenSuffix s
    ⟨stripL s⟩

example : clean_outcome_team_name "Lakers Over 25.5" = "Lakers" := by decide
example : clean_outcome_team_name "Alcaraz Moneyline" = "Alcaraz" := by decide
example : clean_outcome_team_name "Yankees (Game 2)" = "Yankees" := by decide

/-- Dynamically-typed Python/JSON value. -/
inductive JVal where
  | null
  | bool (b : Bool)
  | num (q : ℚ)
  | str (s : String)
  | arr (l : List JVal)
  | obj (l : List (String × JVal))

/-- Python truthiness. -/
def pyTruthy : JVal → Bool
  | .null => false
  | .bool b => b
  | .num q => q ≠ 0
  | .str s => s ≠ ""
  | .arr l => !l.isEmpty
  | .obj l => !l.isEmpty

/-- First-binding association-list lookup (Python dict access; keys are
unique in dicts built by the source, so first-binding semantics agree). -/
def alGet {κ β : Type} [DecidableEq κ] (k : κ) : List (κ × β) → Option β
  | [] => none
  | (k', v) :: rest => if k = k' then some v else alGet k rest

/-- `dict.get(k)` on a known dict (association list, first binding wins). -/
def jget (l : List (String × JVal)) (k : String) : JVal :=
  (alGet k l).getD .null

/-- Python `a or b`. -/
def pyOr (a b : JVal) : JVal := if pyTruthy a then a else b

/-- `it.get(k)` on an arbitrary value: AttributeError on non-dicts. -/
def pyGet (v : JVal) (k : String) : Except Unit JVal :=
  match v with
  | .obj l => .ok (jget l k)
  | _ => .error ()

/-- Python `str(v)`.  Containers render as their `repr`, abridged here to a
marker; no claim inspects the rendering of a container or of a non-integral
float. -/
def pyStr : JVal → String
  | .str s => s
  | .num q => if q.den = 1 then toString q.num else toString q
  | .bool true => "True"
  | .bool false => "False"
  | .null => "None"
  | .arr _ => "<list>"
  | .obj _ => "<dict>"

/-- Python `float(s)` on a string: optional sign, decimal digits with an
optional fractional part (scientific notation and inf/nan omitted; no claim
uses them). -/
def parseFloatStr (s : String) : Option ℚ :=
  let t := stripL s.data
  let (sgn, t1) : ℚ × List Char :=
    match t with
    | c :: cs => if c = '-' then (-1, cs) else if c = '+' then (1, cs) else (1, t)
    | [] => (1, t)
  let ip := t1.takeWhile isDigitC
  let r1 := t1.dropWhile isDigitC
  let ipv : ℚ := (ip.foldl (fun acc c => acc * 10 + (c.toNat - '0'.toNat)) (0 : ℕ) : ℕ)
  match r1 with
  | [] => if ip.isEmpty then none else some (sgn * ipv)
  | '.' :: r2 =>
    let fp := r2.takeWhile isDigitC
    let r3 := r2.dropWhile isDigitC
    if !r3.isEmpty then none
    else if ip.isEmpty && fp.isEmpty then none
    else
      let fpv : ℚ := (fp.foldl (fun acc c => acc * 10 + (c.toNat - '0'.toNat)) (0 : ℕ) : ℕ)
      some (sgn * (ipv + fpv / (10 : ℚ) ^ fp.length))
  | _ => none

/-- Python `float(v)`: numbers pass through, booleans become 0/1, numeric
strings are parsed, anything else raises (modelled as `none`, always caught
at the call sites in the source). -/
def pyFloat : JVal → Option ℚ
  | .num q => some q
  | .bool b => some (if b then 1 else 0)
  | .str s => parseFloatStr s
  | _ => none

example : pyFloat (.str " 2.5 ") = some (5/2) := by with_unfolding_all decide
example : pyFloat (.str "-150") = some (-150) := by with_unfolding_all decide
example : pyFloat (.str "abc") = none := by decide

/-- `american_to_decimal` (same body in `src/calculations/extract.py` and
`src/utils/odds.py`). -/
def american_to_decimal (a : ℚ) : Option ℚ :=
  if a ≥ 100 then some (1 + a / 100)
  else if a ≤ -100 then some (1 + 100 / (-a))
  else none

def decKeys : List String := ["decimal", "odds_decimal", "price_decimal", "decimal_price"]

def amKeys : List String := ["american", "odds_american"]

/-- `(item, price_obj) if price_obj else (item,)`: the nested `price` dict is
scanned too, unless missing, non-dict, or empty (falsy). -/
def srcsOf (l : List (String × JVal)) : List (List (String × JVal)) :=
  match jget l "price" with
  | .obj pl => if pyTruthy (.obj pl) then [l, pl] else [l]
  | _ => [l]

/-- One `for src: for k: try float(src.get(k)) …` scan; a failed conversion
or a rejected value falls through to the next key (the bare `except: pass`). -/
def scanOdds (srcs : List (List (String × JVal))) (keys : List String)
    (accept : ℚ → Option ℚ) : Option ℚ :=
  firstSome (fun src => firstSome (fun k => (pyFloat (jget src k)).bind accept) keys) srcs

/-- `parse_decimal_odds` from `src/calculations/extract.py` — the version the
state engine imports — on a dict item (a non-dict argument raises at
`item.get`, handled at each call site).  Its generic `odds`/`price` branch
accepts any value ≥ 1.01 as decimal odds and never converts by magnitude. -/
def parse_decimal_odds (l : List (String × JVal)) : Option ℚ :=
  match scanOdds (srcsOf l) decKeys (fun f => if f ≥ 1.01 then some f else none) with
  | some f => some f
  | none =>
    match scanOdds (srcsOf l) amKeys
        (fun f => (american_to_decimal f).bind (fun d => if d = 0 then none else some d)) with
    | some d => some d
    | none => scanOdds [l] ["odds", "price"] (fun f => if f ≥ 1.01 then some f else none)

/-- `parse_decimal_odds` from `src/utils/odds.py`: identical except that the
generic branch first tries the by-magnitude American conversion. -/
def parse_decimal_odds_utils (v : JVal) : Option ℚ :=
  match v with
  | .obj l =>
    (match scanOdds (srcsOf l) decKeys (fun f => if f ≥ 1.01 then some f else none) with
     | some f => some f
     | none =>
       match scanOdds (srcsOf l) amKeys
           (fun f => (american_to_decimal f).bind (fun d => if d = 0 then none else some d)) with
       | some d => some d
       | none =>
         scanOdds [l] ["odds", "price"]
           (fun f =>
             match american_to_decimal f with
             | some d => if d = 0 then (if f ≥ 1.01 then some f else none) else some d
             | none => if f ≥ 1.01 then some f else none))
  | _ => none

def composeSegKeys : List String :=
  ["period", "bet_period", "segment", "scope", "type", "marketType", "market_type"]

/-- `compose_market` from `src/calculations/normalize.py` on a dict item.
`isinstance(v, (str, int, float))` admits strings, numbers and booleans. -/
def composeMarketD (l : List (String × JVal)) : String :=
  let base := pyStrip (pyStr (pyOr (jget l "market") (pyOr (jget l "market_name") (.str ""))))
  let segCandidates := composeSegKeys.filterMap (fun k =>
    match jget l k with
    | .str s => let t := pyStrip s; if t ≠ "" then some t else none
    | .num q => let t := pyStrip (pyStr (.num q)); if t ≠ "" then some t else none
    | .bool b => let t := pyStrip (pyStr (.bool b)); if t ≠ "" then some t else none
    | _ => none)
  let seg := segCandidates.head?.getD ""
  if seg ≠ "" then
    if !containsSub (lowerL seg.data) (lowerL base.data) then pyStrip (seg ++ " " ++ base)
    else base
  else base

/-- `compose_market` on an arbitrary value: the `except` handler re-raises
`it.get` for non-dicts. -/
def compose_market (it : JVal) : Except Unit String :=
  match it with
  | .obj l => .ok (composeMarketD l)
  | _ => .error ()

example : compose_market (.obj [("market", .str "Moneyline"), ("period", .str "q1")]) =
    .ok "q1 Moneyline" := rfl
example : compose_market (.obj [("market", .str "1st Quarter Moneyline"), ("period", .str "quarter")]) =
    .ok "1st Quarter Moneyline" := rfl

/-- `(sport, str(fixture_id), market_norm, is_live)`. -/
abbrev MarketKey := String × String × String × Bool

/-- One outcome's book: `{"best_price": float, "book": str, "prices": [float]}`
(the initial `book` is Python `None`). -/
structure OutcomeRec where
  best_price : ℚ
  book : JVal
  prices : List ℚ

abbrev OutcomeMap := List (String × OutcomeRec)

abbrev MarketState := List (MarketKey × OutcomeMap)

/-- Association-list analogue of `d.setdefault(k, …)` followed by an in-place
mutation: update the first binding of `k`, or append a new one. -/
def alUpdate {κ β : Type} [DecidableEq κ] (k : κ) (f : Option β → β) :
    List (κ × β) → List (κ × β)
  | [] => [(k, f none)]
  | (k', v) :: rest =>
    if k = k' then (k', f (some v)) :: rest else (k', v) :: alUpdate k f rest

def alSet {κ β : Type} [DecidableEq κ] (k : κ) (v : β) (l : List (κ × β)) : List (κ × β) :=
  alUpdate k (fun _ => v) l

/-- Phase-1 admission of one parsed quote into an outcome record:
append the price, and replace `best_price`/`book` only on a strict
improvement (`if odds > rec["best_price"]`). -/
def admitQuote (odds : ℚ) (sb : JVal) (r0 : Option OutcomeRec) : OutcomeRec :=
  let r := r0.getD { best_price := 0, book := .null, prices := [] }
  let r := { r with prices := r.prices ++ [odds] }
  if odds > r.best_price then { r with best_price := odds, book := sb } else r

def updState (st : MarketState) (key : MarketKey) (out : String) (odds : ℚ) (sb : JVal) :
    MarketState :=
  alUpdate key (fun om => alUpdate out (admitQuote odds sb) (om.getD [])) st

/-- The fixture-id chain of `process_odds_batch`
(`fixture_id or event_id or fixture or match_id or id`, unwrapping one
dict level). -/
def extractFixtureId (l : List (String × JVal)) : JVal :=
  let fid := pyOr (jget l "fixture_id") (pyOr (jget l "event_id")
    (pyOr (jget l "fixture") (pyOr (jget l "match_id") (jget l "id"))))
  match fid with
  | .obj fl => pyOr (jget fl "id") (jget fl "fixture_id")
  | _ => fid

/-- `(v or "").strip()` — raises (`.error`) when `v` is truthy but not a
string, e.g. an integer `name` field. -/
def pyStrOrEmptyStrip (v : JVal) : Except Unit String :=
  if pyTruthy v then
    match v with
    | .str s => .ok (pyStrip s)
    | _ => .error ()
  else .ok ""

/-- The successful phase-1 extraction for one item: the MarketKey, outcome,
decimal odds and sportsbook it admits, or `none` when any of the guards
(`not market or not outcome or not sb`, unparseable odds, falsy fixture id)
skips it. -/
def admissionOfItem (sport : String) (it : JVal) : Option (MarketKey × String × ℚ × JVal) :=
  match it with
  | .obj l =>
    match pyStrOrEmptyStrip (jget l "name") with
    | .error _ => none
    | .ok outcome =>
      let market := composeMarketD l
      let sb := jget l "sportsbook"
      if market = "" || outcome = "" || !pyTruthy sb then none
      else
        match parse_decimal_odds l with
        | none => none
        | some odds =>
          let fid := extractFixtureId l
          if !pyTruthy fid then none
          else
            some ((sport, pyStr fid, normalize_market market, pyTruthy (jget l "is_live")),
                  outcome, odds, sb)
  | _ => none

/-- Phase 1 of `process_odds_batch` for one item (evcalc.py lines 48–73).
This loop body has no per-item exception handler: a non-dict item
(`it.get` raises) or a truthy non-string `name` (`.strip()` raises)
propagates out of the whole batch. -/
def phase1Item (sport : String) (it : JVal) (st : MarketState) :
    Except Unit (MarketState × Option MarketKey) :=
  match it with
  | .obj l =>
    match pyStrOrEmptyStrip (jget l "name") with
    | .error e => .error e
    | .ok _ =>
      .ok (match admissionOfItem sport it with
           | some (key, out, odds, sb) => (updState st key out odds sb, some key)
           | none => (st, none))
  | _ => .error ()

def phase1Aux (sport : String) : List JVal → MarketState → List MarketKey →
    Except Unit (MarketState × List MarketKey)
  | [], st, acc => .ok (st, acc)
  | it :: rest, st, acc => do
    let (st', k?) ← phase1Item sport it st
    phase1Aux sport rest st'
      (match k? with
       | some k => acc ++ [k]
       | none => acc)

/-- Duplicate removal keeping first occurrences: the model's deterministic
stand-in for iterating the Python `set` of affected keys. -/
def dedupFirstAux {α : Type} [DecidableEq α] (seen : List α) : List α → List α
  | [] => []
  | a :: as => if a ∈ seen then dedupFirstAux seen as else a :: dedupFirstAux (a :: seen) as

def dedupFirst {α : Type} [DecidableEq α] (l : List α) : List α := dedupFirstAux [] l

/-- `compute_ev_pct` from `src/calculations/evcalc.py` (with exact inputs the
`except` branch returning 0.0 is unreachable). -/
def compute_ev_pct (fair_prob offered_odds : ℚ) : ℚ :=
  let fp := max 0 (min 1 fair_prob)
  let od := max 1 offered_odds
  (fp * od - 1) * 100

/-- `compute_arbitrage` from `src/calculations/evcalc.py`.  `best` is the
dict `outcome → (best_price, best_book)` in insertion order. -/
def compute_arbitrage (best : List (String × ℚ × JVal)) : Option (ℚ × ℚ) :=
  if best.length < 2 then none
  else
    let total := best.foldl
      (fun acc e => if e.2.1 ≠ 0 && e.2.1 ≥ 1.01 then acc + 1 / e.2.1 else acc) 0
    if 0 < total && total < 1 then some (total, (1 - total) * 100) else none

/-- Round-half-to-even on an exact rational, the idealisation of Python's
`round`. -/
def roundHalfEven (q : ℚ) : ℤ :=
  let f := q.floor
  let r := q - f
  if r < 1/2 then f
  else if r > 1/2 then f + 1
  else if f % 2 = 0 then f else f + 1

/-- Python `round(q, 3)`. -/
def pyRound3 (q : ℚ) : ℚ := (roundHalfEven (q * 1000) : ℚ) / 1000

/-- Team key used to group outcomes for fair probabilities
(`clean_outcome_team_name(out).lower()`, falling back to the raw outcome). -/
def teamKeyOf (out : String) : String :=
  let t := pyLower (clean_outcome_team_name out)
  if t = "" then pyLower (pyStrip out) else t

def groupOutcomes (base : List (String × ℚ)) : List (String × List String) :=
  base.foldl (fun groups e => alUpdate (teamKeyOf e.1) (fun l0 => l0.getD [] ++ [e.1]) groups) []

/-- Fair-probability derivation of `process_odds_batch` (evcalc.py lines
125–148): team-grouped normalisation first, else whole-market
normalisation for exclusive markets with total implied in `[0.6, 2.0]`. -/
def fairProbsOf (marketNorm : String) (base : List (String × ℚ)) : List (String × ℚ) :=
  let groups := groupOutcomes base
  let teamFair := groups.foldl (fun fair g =>
    if g.2.length < 2 then fair
    else
      let total := g.2.foldl (fun acc o => acc + ((alGet o base).getD 0)) 0
      if 0.6 ≤ total && total ≤ 2.0 then
        fair ++ g.2.filterMap (fun o =>
          match alGet o base with
          | some bp => if bp ≠ 0 then some (o, bp / total) else none
          | none => none)
      else fair) []
  if teamFair.isEmpty && base.length ≥ 2 then
    let total := base.foldl (fun acc e => acc + e.2) 0
    if (0.6 ≤ total && total ≤ 2.0) && !is_nonexclusive_market marketNorm then
      base.map (fun e => (e.1, e.2 / total))
    else []
  else teamFair

/-- `best = {out: (best_price, book) for … if best_price >= 1.01}`. -/
def bestOf (om : OutcomeMap) : List (String × ℚ × JVal) :=
  om.filterMap (fun e =>
    if e.2.best_price ≥ 1.01 then some (e.1, e.2.best_price, e.2.book) else none)

/-- `base_probs` (`if price and price >= 1.01: 1/price`). -/
def baseProbsOf (best : List (String × ℚ × JVal)) : List (String × ℚ) :=
  best.filterMap (fun e =>
    if e.2.1 ≠ 0 && e.2.1 ≥ 1.01 then some (e.1, 1 / e.2.1) else none)

/-- Stable descending insertion by price, matching Python's stable
`sorted(…, key=price, reverse=True)`. -/
def insDesc (x : String × ℚ × JVal) : List (String × ℚ × JVal) → List (String × ℚ × JVal)
  | [] => [x]
  | y :: ys => if x.2.1 > y.2.1 then x :: y :: ys else y :: insDesc x ys

def sortByPriceDesc (l : List (String × ℚ × JVal)) : List (String × ℚ × JVal) :=
  l.foldl (fun acc x => insDesc x acc) []

/-- A published arbitrage record (`payload.arbitrage` shape).  The
`sports_book_name` entries keep the raw stored `book or ""` value. -/
structure ArbRec where
  sport : String
  fixture_id : String
  market_name : String
  is_live : Bool
  outcomes : List (String × JVal × ℚ)
  total_implied_percent : ℚ
  arbitrage_percent : ℚ

def mkArb (key : MarketKey) (best : List (String × ℚ × JVal)) : Option ArbRec :=
  match compute_arbitrage best with
  | none => none
  | some (total, pct) =>
    let ordered := sortByPriceDesc best
    if ordered.length ≥ 2 then
      some { sport := key.1
             fixture_id := key.2.1
             market_name := key.2.2.1
             is_live := key.2.2.2
             outcomes := ordered.map (fun e =>
               (e.1, pyOr e.2.2 (.str ""), if e.2.1 ≠ 0 then e.2.1 else 0))
             total_implied_percent := pyRound3 (total * 100)
             arbitrage_percent := pyRound3 pct }
    else none

/-- A published EV record.  The enrichment fields (`league`, `home_team`,
`away_team`, `start_date`, `deep_link`, `market_base`, `market_type`) are
backfilled from `FixtureMeta` and participants in the source; no claim
mentions them, and they are omitted from the embedding. -/
structure EvRec where
  sport : String
  fixture_id : String
  market : String
  name : String
  price : ℚ
  sportsbook : JVal
  is_live : Bool
  ev_value : ℚ

/-- `normalize_market(it.get("market"))` inside the per-item `try` of the EV
loop: a raised error (non-dict item or truthy non-string market) skips the
item (`none`). -/
def evMarketOfItem (it : JVal) : Option String :=
  match pyGet it "market" with
  | .error _ => none
  | .ok v =>
    if pyTruthy v then
      match v with
      | .str s => some (normalize_market s)
      | _ => none
    else some ""

def evFidOfItem (it : JVal) : Option String :=
  match it with
  | .obj l => some (pyStr (extractFixtureId l))
  | _ => none

def evOutcomeOfItem (it : JVal) : Option String :=
  match it with
  | .obj l =>
    match pyStrOrEmptyStrip (jget l "name") with
    | .ok s => some s
    | .error _ => none
  | _ => none

/-- One iteration of the EV-emission loop (evcalc.py lines 230–299) for one
input item against one affected MarketKey: the item contributes exactly when
its lower-cased raw `market` equals the key's composed/normalised market,
its fixture id matches, its outcome has a fair probability, and its odds
parse. -/
def evForItem (key : MarketKey) (fair : List (String × ℚ)) (it : JVal) : Option EvRec :=
  match evMarketOfItem it with
  | none => none
  | some nm =>
    if nm ≠ key.2.2.1 then none
    else
      match evFidOfItem it with
      | none => none
      | some fid =>
        if fid ≠ key.2.1 then none
        else
          match evOutcomeOfItem it with
          | none => none
          | some out =>
            match alGet out fair with
            | none => none
            | some fp =>
              match (match it with | .obj l => parse_decimal_odds l | _ => none) with
              | none => none
              | some od =>
                some { sport := key.1
                       fixture_id := key.2.1
                       market := key.2.2.1
                       name := out
                       price := od
                       sportsbook :=
                         (match it with
                          | .obj l => pyOr (jget l "sportsbook") (.str "")
                          | _ => .str "")
                       is_live := key.2.2.2
                       ev_value := pyRound3 (compute_ev_pct fp od) }

abbrev EvCache := List ((String × String × String × String) × ℚ)

/-- The EV-cache write guarded by non-empty keys (evcalc.py lines 301–308). -/
def cacheUpd (cache : EvCache) (r : EvRec) : EvCache :=
  let fid := r.fixture_id
  let sb := pyLower (pyStrip (pyStr r.sportsbook))
  let mk := pyLower (pyStrip r.market)
  let nm := pyLower (pyStrip r.name)
  if fid ≠ "" && sb ≠ "" && mk ≠ "" && nm ≠ "" then alSet (fid, sb, mk, nm) r.ev_value cache
  else cache

/-- Phase 2 for one affected key: build `best`, `base_probs`, `fair_probs`,
the arbitrage record, and the EV records drawn from the input items.  The
`FixtureMeta` backfill and one-shot fixture fetch touch only omitted
enrichment fields. -/
def processKey (items : List JVal) (st : MarketState) (key : MarketKey) (cache : EvCache) :
    EvCache × List EvRec × Option ArbRec :=
  let om := (alGet key st).getD []
  let best := bestOf om
  let base := baseProbsOf best
  let fair := fairProbsOf key.2.2.1 base
  let arb := mkArb key best
  if fair.isEmpty then (cache, [], arb)
  else
    let (c, evs) := items.foldl (fun (acc : EvCache × List EvRec) it =>
      match evForItem key fair it with
      | none => acc
      | some r => (cacheUpd acc.1 r, acc.2 ++ [r])) (cache, [])
    (c, evs, arb)

/-- `process_odds_batch(sport, items)` over explicit state: returns the new
market state, EV cache, EV list and arbitrage list, or an error when phase 1
raises.  Affected keys are visited in first-occurrence order (the source
iterates a Python `set`; no claim depends on the visit order). -/
def process_odds_batch (sport : String) (items : List JVal)
    (st0 : MarketState) (cache0 : EvCache) :
    Except Unit (MarketState × EvCache × List EvRec × List ArbRec) := do
  let (st1, keysRaw) ← phase1Aux sport items st0 []
  let keys := dedupFirst keysRaw
  let res := keys.foldl (fun (acc : EvCache × List EvRec × List ArbRec) key =>
    let (cache', evs', arb?) := processKey items st1 key acc.1
    (cache', acc.2.1 ++ evs',
      match arb? with
      | some a => acc.2.2 ++ [a]
      | none => acc.2.2)) (cache0, [], [])
  pure (st1, res.1, res.2.1, res.2.2)

/-- A plain quote item, as the S1/S2 scenarios of the spec write them. -/
def mkQuote (mkt nm sb : String) (dec : ℚ) (fid : String) : JVal :=
  .obj [("market", .str mkt), ("name", .str nm), ("sportsbook", .str sb),
        ("odds", .num dec), ("id", .str fid)]

example :
    (process_odds_batch "basketball"
        [mkQuote "moneyline" "A" "X" 2.10 "F", mkQuote "moneyline" "B" "Y" 2.05 "F"]
        [] []).toOption.map (fun r => (r.2.2.1.length, r.2.2.2.length)) = some (2, 1) := by
  with_unfolding_all rfl

example :
    (process_odds_batch "basketball"
        [mkQuote "moneyline" "A" "X" 2.10 "F", mkQuote "moneyline" "B" "Y" 2.05 "F"]
        [] []).toOption.map (fun r => r.2.2.2.map (fun a => a.arbitrage_percent)) =
      some [36/10] := by
  with_unfolding_all rfl

/-- `norm_token` from `src/server/filters.py` on a string. -/
def norm_token (s : String) : String := pyLower (pyStrip s)

/-- `norm_token` on a raw value (non-string truthy arguments hit the
`except` and yield `""`). -/
def norm_token_j (v : JVal) : String :=
  if pyTruthy v then
    match v with
    | .str s => norm_token s
    | _ => ""
  else ""

/-- `norm_clean` from `src/server/filters.py` on a string:
`re.sub(r"[^a-z0-9]", "", x.lower())`. -/
def norm_clean (s : String) : String := ⟨(lowerL s.data).filter isAlnumLower⟩

def norm_clean_j (v : JVal) : String :=
  if pyTruthy v then
    match v with
    | .str s => norm_clean s
    | _ => ""
  else ""

def leagueAliasOf (v : String) : String :=
  if v = "ncaaf" || v = "ncaafb" then "ncaafootball"
  else if v = "ncaam" || v = "ncaab" then "ncaabasketball"
  else if v = "ncaaw" then "ncaawbasketball"
  else ⟨pyReplace "collegefootball".toList "ncaafootball".toList v.data⟩

/-- `norm_league_alias` from `src/server/filters.py`. -/
def norm_league_alias (s : String) : String := leagueAliasOf (norm_clean s)

def norm_league_alias_j (v : JVal) : String := leagueAliasOf (norm_clean_j v)

/-- `canon_market_text` applied to a raw value (the `except` returns `""`
for truthy non-strings). -/
def canon_j (v : JVal) : String :=
  if pyTruthy v then
    match v with
    | .str s => canon_market_text s
    | _ => ""
  else ""

/-- `normalize_filter_values` on a list input: `str(it).strip()`, drop
falsy entries, lower-case (set semantics are used only through
membership). -/
def normalize_filter_values (l : List String) : List String :=
  ((l.map pyStrip).filter (· ≠ "")).map pyLower

/-- The per-subscriber `FilterSets` dataclass of `src/server/filters.py`. -/
structure FilterSets where
  sport : List String
  market_raw : List String
  market_norm : List String
  sportsbook_raw : List String
  sportsbook_clean : List String
  league_raw : List String
  league_clean : List String

/-- `FilterSets.from_prefs` for list-valued filter axes. -/
def FilterSets.fromLists (sport market sportsbook league : List String) : FilterSets :=
  let s := normalize_filter_values sport
  let m := normalize_filter_values market
  let b := normalize_filter_values sportsbook
  let lg := normalize_filter_values league
  { sport := s
    market_raw := m
    market_norm := m.map canon_market_text
    sportsbook_raw := b
    sportsbook_clean := b.map norm_clean
    league_raw := lg
    league_clean := lg.map norm_league_alias }

/-- `ev_matches` from `src/server/filters.py`. -/
def ev_matches (e : JVal) (fs : FilterSets) : Bool :=
  match e with
  | .obj l =>
    let sportOk := fs.sport.isEmpty ||
      fs.sport.contains (norm_token (pyStr (pyOr (jget l "sport") (.str ""))))
    let vnorm := canon_market_text (pyStr (pyOr (jget l "market") (.str "")))
    let marketOk := fs.market_raw.isEmpty ||
      (fs.market_norm.contains vnorm ||
       fs.market_norm.any (fun fn => fn ≠ "" && containsSub fn.data vnorm.data))
    let vclean := norm_clean (pyStr (pyOr (jget l "sportsbook") (.str "")))
    let sbOk := fs.sportsbook_raw.isEmpty ||
      (fs.sportsbook_clean.contains vclean ||
       fs.sportsbook_clean.any (fun fv => fv ≠ "" && containsSub fv.data vclean.data))
    let lclean := norm_league_alias (pyStr (pyOr (jget l "league") (.str "")))
    let lgOk := fs.league_raw.isEmpty ||
      fs.league_clean.any (fun lv =>
        lv ≠ "" && (containsSub lv.data lclean.data || containsSub lclean.data lv.data))
    sportOk && marketOk && sbOk && lgOk
  | _ => false

/-- `arb_matches` from `src/server/filters.py`.  A non-list `outcomes`
value yields no matching outcome (chars/keys of a str/dict are not dicts;
numbers raise into the `except`, returning `False`). -/
def arb_matches (a : JVal) (fs : FilterSets) : Bool :=
  match a with
  | .obj l =>
    let sportOk := fs.sport.isEmpty ||
      fs.sport.contains (norm_token (pyStr (pyOr (jget l "sport") (.str ""))))
    let vnorm := canon_market_text (pyStr (pyOr (jget l "market_name") (.str "")))
    let marketOk := fs.market_raw.isEmpty ||
      (fs.market_norm.contains vnorm ||
       fs.market_norm.any (fun fn => fn ≠ "" && containsSub fn.data vnorm.data))
    let sbOk := fs.sportsbook_raw.isEmpty ||
      (match pyOr (jget l "outcomes") (.arr []) with
       | .arr items =>
         items.any (fun o =>
           match o with
           | .obj ol =>
             let sbn := norm_clean (pyStr (pyOr (jget ol "sports_book_name") (.str "")))
             fs.sportsbook_clean.contains sbn ||
               fs.sportsbook_clean.any (fun fv => fv ≠ "" && containsSub fv.data sbn.data)
           | _ => false)
       | _ => false)
    sportOk && marketOk && sbOk
  | _ => false

/-- `sport_match` from `filter_grouped_raw_odds` (`src/server/transform.py`). -/
def sport_match_fg (fs : FilterSets) (sp : JVal) : Bool :=
  fs.sport.isEmpty || fs.sport.contains (norm_token_j sp)

/-- `league_match` from `filter_grouped_raw_odds`. -/
def league_match_fg (fs : FilterSets) (lg : JVal) : Bool :=
  fs.league_raw.isEmpty ||
    (let l := norm_league_alias_j lg
     fs.league_clean.any (fun fl =>
       fl ≠ "" && (containsSub fl.data l.data || containsSub l.data fl.data)))

/-- `market_match` from `filter_grouped_raw_odds`. -/
def market_match_fg (fs : FilterSets) (m : JVal) : Bool :=
  fs.market_raw.isEmpty ||
    (let mclean := canon_j m
     fs.market_raw.any (fun fm =>
       let fmc := canon_market_text fm
       fmc ≠ "" && containsSub fmc.data mclean.data))

/-- The book-level sportsbook gate of `filter_grouped_raw_odds`. -/
def book_match_fg (fs : FilterSets) (book : String) : Bool :=
  fs.sportsbook_raw.isEmpty ||
    fs.sportsbook_clean.any (fun fv => fv ≠ "" && containsSub fv.data (norm_clean book).data)

/-- An odds entry `o` of game `g` under sportsbook `book` survives
`filter_grouped_raw_odds` exactly when all four axis gates pass (the
surrounding non-emptiness checks only propagate survival upward). -/
def rawOddsEntryKept (fs : FilterSets) (book : String) (g o : JVal) : Bool :=
  book_match_fg fs book &&
  (match g with
   | .obj gl => sport_match_fg fs (jget gl "sport") && league_match_fg fs (jget gl "league")
   | _ => false) &&
  (match o with
   | .obj ol => market_match_fg fs (pyOr (jget ol "market") (pyOr (jget ol "market_name") (.str "")))
   | _ => false)

/-- The `ev_map` the SSE worker builds before emitting a grouped raw-odds
payload (`src/calculations/sse.py` lines 337–351): keyed lookups drawn from
the EV items of the **current** batch only. -/
def evMapOf (evs : List EvRec) : List ((String × String × String × String) × ℚ) :=
  evs.foldl (fun m evi =>
    let fid := evi.fixture_id
    let sb := pyLower (pyStrip (pyStr (pyOr evi.sportsbook (.str ""))))
    let mk := pyLower (pyStrip evi.market)
    let nm := pyLower (pyStrip evi.name)
    if fid ≠ "" && sb ≠ "" && mk ≠ "" && nm ≠ "" then
      alSet (fid, sb, mk, nm) (if evi.ev_value ≠ 0 then evi.ev_value else 0) m
    else m) []

/-- The `ev_value` the worker attaches to a raw odds entry
(`src/calculations/sse.py` line 393): a lookup in `ev_map` — the current
batch's EV list — and nothing else.  The module-level `ev_cache` is not
consulted anywhere in the worker. -/
def sse_ev_value (evs : List EvRec) (fxid bookLower mkLower nmLower : String) : Option ℚ :=
  alGet (fxid, bookLower, mkLower, nmLower) (evMapOf evs)

/-- Modelled from the spec: "`ev_value` is looked up in the EVCache; missing
lookups yield `null`" and "EVCache … used to annotate later raw payloads
even when no EV recomputation fires."  This is the behaviour the claim
asserts, for comparison with `sse_ev_value` (the code). -/
def spec_cache_ev_value (cache : EvCache) (fxid bookLower mkLower nmLower : String) :
    Option ℚ :=
  alGet (fxid, bookLower, mkLower, nmLower) cache

/-- Which code path of `Hub.broadcast` handles a recipient, with the
claim-relevant data: `viaEv kept` (EV path; `group_ev_list(kept)` is sent
iff `kept` is non-empty), `viaArb send payload`, `viaRaw inner` (sent after
`filter_grouped_raw_odds` when non-empty), or `verbatim payload` (unknown
`prod_type`: passthrough with no filtering at all). -/
inductive SendOutcome where
  | viaEv (kept : List JVal)
  | viaArb (send : Bool) (payload : JVal)
  | viaRaw (inner : JVal)
  | verbatim (payload : JVal)
  | skip

/-- `broadcast`'s payload classification: an `arbitrage` key wins, then an
`ev` list; key *presence* is what is tested. -/
def hubClassify (payload : JVal) : Bool × Bool :=
  match payload with
  | .obj pl =>
    match alGet "payload" pl with
    | some (.obj il) =>
      if (alGet "arbitrage" il).isSome then (true, false)
      else
        match alGet "ev" il with
        | some (.arr _) => (false, true)
        | _ => (false, false)
    | _ => (false, false)
  | _ => (false, false)

/-- `(payload.get("payload") or {}).get("arbitrage") or {}`. -/
def arbObjOf (payload : JVal) : JVal :=
  match payload with
  | .obj pl =>
    match pyOr (jget pl "payload") (.obj []) with
    | .obj il => pyOr (jget il "arbitrage") (.obj [])
    | _ => .obj []
  | _ => .obj []

/-- `(payload.get("payload") or {}).get("ev") or []`, kept only when it is
a list (`isinstance(ev_list, list)`) — `none` otherwise. -/
def evListOf (payload : JVal) : Option (List JVal) :=
  match payload with
  | .obj pl =>
    match pyOr (jget pl "payload") (.obj []) with
    | .obj il =>
      match pyOr (jget il "ev") (.arr []) with
      | .arr items => some items
      | _ => none
    | _ => none
  | _ => none

/-- `float((e or {}).get("ev_value"))` with the `except` sentinel `-1e12`. -/
def evValueOrSentinel (e : JVal) : ℚ :=
  match e with
  | .obj el => (pyFloat (jget el "ev_value")).getD (-(10 : ℚ) ^ 12)
  | _ => -(10 : ℚ) ^ 12

/-- The per-recipient dispatch of `Hub.broadcast`
(`src/server/hub.py` lines 165–235), as the path taken and the data carried
to the send (JSON serialisation and the `group_ev_list` regrouping transform
are outside the claims). -/
def broadcastDecision (ptype : String) (fs : FilterSets) (evTh arbTh : ℚ)
    (payload : JVal) : SendOutcome :=
  let cls := hubClassify payload
  if ptype = "all" then
    if cls.2 then
      match evListOf payload with
      | some evList => .viaEv (evList.filter (fun e => ev_matches e fs))
      | none => .skip
    else if cls.1 then
      .viaArb (match arbObjOf payload with
               | .obj al => arb_matches (.obj al) fs
               | _ => false) payload
    else
      match payload with
      | .obj pl =>
        match jget pl "payload" with
        | .obj il => .viaRaw (.obj il)
        | _ => .skip
      | _ => .skip
  else if ptype = "arbitrage" then
    if cls.1 then
      let arbObj := arbObjOf payload
      let pct := (match arbObj with
                  | .obj al => pyFloat ((alGet "arbitrage_percent" al).getD (.num 0))
                  | _ => none).getD 0
      let matched := arb_matches arbObj fs
      .viaArb (pct ≥ arbTh && matched) payload
    else .skip
  else if ptype = "ev" then
    if cls.2 then
      match evListOf payload with
      | some evList =>
        let kept0 := evList.filter (fun e => ev_matches e fs)
        let kept := if evTh > 0 then kept0.filter (fun e => evValueOrSentinel e ≥ evTh) else kept0
        .viaEv kept
      | none => .skip
    else .skip
  else
    .verbatim payload

/-! ## Theorems for the claims -/

/-- The claim's reading of the arbitrage denominator: `Σ 1/price` over
outcomes whose price is at least 1.01. -/
def arbImpliedSum (best : List (String × ℚ × JVal)) : ℚ :=
  ((best.filter (fun e => decide (e.2.1 ≥ 1.01))).map (fun e => 1 / e.2.1)).sum

theorem arbSum_foldl (l : List (String × ℚ × JVal)) (acc : ℚ) :
    l.foldl (fun a e => if e.2.1 ≠ 0 && e.2.1 ≥ 1.01 then a + 1 / e.2.1 else a) acc
      = acc + arbImpliedSum l := by
  induction l generalizing acc with
  | nil => simp [arbImpliedSum]
  | cons e t ih =>
    rw [List.foldl_cons]
    by_cases h : (1.01 : ℚ) ≤ e.2.1
    · have hne : e.2.1 ≠ 0 := by intro h0; rw [h0] at h; norm_num at h
      have hcond : (decide (e.2.1 ≠ 0) && decide (e.2.1 ≥ 1.01)) = true := by
        simp [hne, ge_iff_le, h]
      rw [if_pos hcond, ih]
      have hfl : arbImpliedSum (e :: t) = 1 / e.2.1 + arbImpliedSum t := by
        unfold arbImpliedSum
        simp [List.filter_cons, ge_iff_le, h]
      rw [hfl]
      ring
    · have hcond : ¬ ((decide (e.2.1 ≠ 0) && decide (e.2.1 ≥ 1.01)) = true) := by
        simp [ge_iff_le, h]
      rw [if_neg hcond, ih]
      have hfl : arbImpliedSum (e :: t) = arbImpliedSum t := by
        unfold arbImpliedSum
        simp [List.filter_cons, ge_iff_le, h]
      rw [hfl]

/-- Closed form of `compute_arbitrage` in terms of the claim's sum. -/
theorem compute_arbitrage_eq (best : List (String × ℚ × JVal)) :
    compute_arbitrage best =
      if 2 ≤ best.length ∧ 0 < arbImpliedSum best ∧ arbImpliedSum best < 1 then
        some (arbImpliedSum best, (1 - arbImpliedSum best) * 100)
      else none := by
  unfold compute_arbitrage
  by_cases hlen : best.length < 2
  · rw [if_pos hlen, if_neg]
    intro hc
    omega
  · rw [if_neg hlen]
    have hfold := arbSum_foldl best 0
    rw [zero_add] at hfold
    rw [hfold]
    by_cases hpos : (0 : ℚ) < arbImpliedSum best
    · by_cases hlt : arbImpliedSum best < 1
      · have hcond : (decide (0 < arbImpliedSum best) && decide (arbImpliedSum best < 1)) = true := by
          simp [hpos, hlt]
        rw [if_pos hcond, if_pos ⟨by omega, hpos, hlt⟩]
      · have hcond : ¬ ((decide (0 < arbImpliedSum best) && decide (arbImpliedSum best < 1)) = true) := by
          simp [hlt]
        rw [if_neg hcond, if_neg]
        intro hc
        exact hlt hc.2.2
    · have hcond : ¬ ((decide (0 < arbImpliedSum best) && decide (arbImpliedSum best < 1)) = true) := by
        simp [hpos]
      rw [if_neg hcond, if_neg]
      intro hc
      exact hpos hc.2.1

/-- **C2** — `compute_arbitrage(best)` returns a non-null result exactly when
`best` has at least 2 outcomes and `Σ 1/price` over outcomes with price
≥ 1.01 lies strictly between 0 and 1; when non-null, the arbitrage percent
is `(1 − Σ) × 100` (and the first component is the sum itself). -/
theorem C2_compute_arbitrage (best : List (String × ℚ × JVal)) :
    ((compute_arbitrage best).isSome ↔
      2 ≤ best.length ∧ 0 < arbImpliedSum best ∧ arbImpliedSum best < 1) ∧
    ∀ t a, compute_arbitrage best = some (t, a) →
      t = arbImpliedSum best ∧ a = (1 - arbImpliedSum best) * 100 := by
  rw [compute_arbitrage_eq]
  by_cases hc : 2 ≤ best.length ∧ 0 < arbImpliedSum best ∧ arbImpliedSum best < 1
  · rw [if_pos hc]
    refine ⟨by simpa using hc, ?_⟩
    intro t a h
    injection h with h'
    injection h' with h1 h2
    exact ⟨h1.symm, h2.symm⟩
  · rw [if_neg hc]
    refine ⟨by simpa using hc, ?_⟩
    intro t a h
    cases h

def c2Best : List (String × ℚ × JVal) :=
  [("A", 21/10, .str "X"), ("B", 41/20, .str "Y")]

/-- Witness for C2 at the spec's S1 scenario (best prices 2.10 / 2.05). -/
theorem C2_compute_arbitrage_witness :
    (830/861 : ℚ) = arbImpliedSum c2Best ∧
    (3100/861 : ℚ) = (1 - arbImpliedSum c2Best) * 100 :=
  (C2_compute_arbitrage c2Best).2 (830/861) (3100/861) (by with_unfolding_all rfl)

/-- **C6 counterexample** — as stated over every real `p`, the sign
equivalence fails: at `p = 4`, `o = 1/2` we have `p·o = 2 > 1`, yet
`compute_ev_pct` clamps `p` to 1 and `o` to 1 and returns 0. -/
theorem C6_counterexample :
    (1 : ℚ) < 4 * (1/2 : ℚ) ∧ ¬ (0 < compute_ev_pct 4 (1/2)) := by
  constructor
  · norm_num
  · unfold compute_ev_pct
    norm_num [min_def, max_def]

/-- **C6 (amended)** — restricted to fair probabilities `p ∈ [0, 1]` (the
clamp `max(0, min(1, p))` is then the identity): `compute_ev_pct p o > 0`
iff `p·o > 1`; moreover `compute_ev_pct 0 o = −100` and
`compute_ev_pct 1 1 = 0`. -/
theorem compute_ev_pct_eq (p o : ℚ) :
    compute_ev_pct p o = (max 0 (min 1 p) * max 1 o - 1) * 100 := rfl

theorem C6_ev_sign (p o : ℚ) (h0 : 0 ≤ p) (h1 : p ≤ 1) :
    (0 < compute_ev_pct p o ↔ 1 < p * o) ∧
    compute_ev_pct 0 o = -100 ∧
    compute_ev_pct 1 1 = 0 := by
  have hclamp : max 0 (min 1 p) = p := by
    rw [min_eq_right h1, max_eq_right h0]
  refine ⟨?_, ?_, ?_⟩
  · rw [compute_ev_pct_eq, hclamp]
    by_cases ho : o ≤ 1
    · rw [max_eq_left ho]
      constructor
      · intro h
        nlinarith
      · intro h
        nlinarith [mul_le_mul_of_nonneg_left ho h0]
    · push_neg at ho
      rw [max_eq_right ho.le]
      constructor
      · intro h
        nlinarith
      · intro h
        nlinarith
  · rw [compute_ev_pct_eq]
    have h' : max (0 : ℚ) (min 1 0) = 0 := by norm_num
    rw [h']
    ring
  · rw [compute_ev_pct_eq]
    norm_num

/-- Witness for C6 at `p = 1/2`, `o = 3` (EV is positive iff `3/2 > 1`). -/
theorem C6_ev_sign_witness :
    (0 < compute_ev_pct (1/2) 3 ↔ 1 < (1/2 : ℚ) * 3) ∧
    compute_ev_pct 0 3 = -100 ∧
    compute_ev_pct 1 1 = 0 :=
  C6_ev_sign (1/2) 3 (by norm_num) (by norm_num)

/-- **C3 counterexample** — the `parse_decimal_odds` the state engine uses
(`src/calculations/extract.py`, imported by `evcalc.py`) returns a generic
`odds: 150` unchanged as decimal odds 150, not the American conversion
`1 + 150/100 = 2.5` the claim requires. -/
theorem C3_counterexample :
    parse_decimal_odds [("odds", .num 150)] = some 150 ∧
    american_to_decimal 150 = some (5/2) ∧
    (150 : ℚ) ≠ 5/2 := by
  refine ⟨by with_unfolding_all rfl, ?_, by norm_num⟩
  unfold american_to_decimal
  norm_num

/-- **C3 (amended)** — for a quote whose odds appear only under a generic
`odds` field with value `x`: the state engine's parser
(`src/calculations/extract.py`) treats `x` as decimal odds whenever
`x ≥ 1.01` and never converts by magnitude, while the unused
`src/utils/odds.py` parser implements the claimed rule (`|x| ≥ 100` as
American, else decimal when `x ≥ 1.01`). -/
theorem C3_generic_odds (x : ℚ) :
    (parse_decimal_odds [("odds", .num x)] =
      if 1.01 ≤ x then some x else none) ∧
    (parse_decimal_odds_utils (.obj [("odds", .num x)]) =
      if 100 ≤ x then some (1 + x / 100)
      else if x ≤ -100 then some (1 + 100 / (-x))
      else if 1.01 ≤ x then some x else none) := by
  constructor
  · by_cases h : (1.01 : ℚ) ≤ x <;>
      simp [parse_decimal_odds, scanOdds, srcsOf, firstSome, jget, alGet, pyFloat,
        decKeys, amKeys, ge_iff_le, h]
  · by_cases h100 : (100 : ℚ) ≤ x
    · have hd : (1 + x / 100) ≠ 0 := by
        have : (1 : ℚ) ≤ x / 100 := by linarith
        linarith
      simp [parse_decimal_odds_utils, scanOdds, srcsOf, firstSome, jget, alGet, pyFloat,
        decKeys, amKeys, american_to_decimal, ge_iff_le, h100, hd]
    · by_cases hm100 : x ≤ (-100 : ℚ)
      · have hd : (1 + 100 / (-x)) ≠ 0 := by
          have hx : (0 : ℚ) < -x := by linarith
          have : (0 : ℚ) < 100 / (-x) := by positivity
          linarith
        simp [parse_decimal_odds_utils, scanOdds, srcsOf, firstSome, jget, alGet, pyFloat,
          decKeys, amKeys, american_to_decimal, ge_iff_le, h100, hm100, hd]
      · by_cases h : (1.01 : ℚ) ≤ x <;>
          simp [parse_decimal_odds_utils, scanOdds, srcsOf, firstSome, jget, alGet, pyFloat,
            decKeys, amKeys, american_to_decimal, ge_iff_le, h100, hm100, h]

/-- **C4** — the grouped raw-odds annotation is a lookup in the *current
batch's* EV list only (`ev_map`), never in the EVCache: with no EV
recomputation in the current batch (`evs = []`) the annotation is `null`
even though the cache holds the EV percent computed in an earlier batch. -/
theorem C4_cache_not_consulted :
    sse_ev_value [] "F" "x" "moneyline" "a" = none ∧
    spec_cache_ev_value [(("F", "x", "moneyline", "a"), 129/100)] "F" "x" "moneyline" "a" =
      some (129/100) ∧
    (∀ evs fxid bk mk nm, evs = [] → sse_ev_value evs fxid bk mk nm = none) := by
  refine ⟨rfl, by with_unfolding_all rfl, ?_⟩
  intro evs fxid bk mk nm h
  subst h
  rfl

/-- **C10** — a connection whose `prod_type` is outside
`{ev, arbitrage, all}` falls into `Hub.broadcast`'s final `else`: every
payload is passed through verbatim, bypassing all filters and
thresholds. -/
theorem C10_unknown_prod_type (ptype : String) (fs : FilterSets) (evTh arbTh : ℚ)
    (payload : JVal) (h1 : ptype ≠ "all") (h2 : ptype ≠ "arbitrage") (h3 : ptype ≠ "ev") :
    broadcastDecision ptype fs evTh arbTh payload = .verbatim payload := by
  unfold broadcastDecision
  simp [h1, h2, h3]

/-- Witness for C10 with `prod_type = "raw"` on an arbitrage payload. -/
theorem C10_unknown_prod_type_witness :
    broadcastDecision "raw" (FilterSets.fromLists [] [] [] []) 0 0
        (.obj [("payload", .obj [("arbitrage", .obj [("sport", .str "tennis")])])]) =
      .verbatim (.obj [("payload", .obj [("arbitrage", .obj [("sport", .str "tennis")])])]) :=
  C10_unknown_prod_type "raw" _ 0 0 _ (by decide) (by decide) (by decide)

/-! ### C1: best-price bookkeeping -/

/-- The maximum of an admitted price sequence (0 for the empty sequence,
matching the record's initial `best_price`). -/
def specMaxPrice (l : List (ℚ × JVal)) : ℚ := l.foldl (fun m e => max m e.1) 0

/-- The book of the *earliest* admitted price equal to the maximum. -/
def specFirstMaxBook (l : List (ℚ × JVal)) : Option JVal :=
  ((l.filter (fun e => decide (e.1 = specMaxPrice l))).head?).map Prod.snd

/-- The book of the *most recent* admitted price equal to the maximum —
the claim's latest-write-wins reading. -/
def specLastMaxBook (l : List (ℚ × JVal)) : Option JVal :=
  ((l.filter (fun e => decide (e.1 = specMaxPrice l))).getLast?).map Prod.snd

def initRec : OutcomeRec := { best_price := 0, book := .null, prices := [] }

/-- The record obtained by admitting the sequence `l` in order. -/
def foldAdmissions (l : List (ℚ × JVal)) : OutcomeRec :=
  l.foldl (fun r e => admitQuote e.1 e.2 (some r)) initRec

theorem admitQuote_prices (q : ℚ) (b : JVal) (r : OutcomeRec) :
    (admitQuote q b (some r)).prices = r.prices ++ [q] := by
  by_cases h : r.best_price < q <;> simp [admitQuote, gt_iff_lt, h]

theorem admitQuote_best (q : ℚ) (b : JVal) (r : OutcomeRec) :
    (admitQuote q b (some r)).best_price = max r.best_price q := by
  by_cases h : r.best_price < q
  · simp [admitQuote, gt_iff_lt, h, max_eq_right (le_of_lt h)]
  · simp [admitQuote, gt_iff_lt, h, max_eq_left (not_lt.mp h)]

theorem admitQuote_book (q : ℚ) (b : JVal) (r : OutcomeRec) :
    (admitQuote q b (some r)).book = if r.best_price < q then b else r.book := by
  by_cases h : r.best_price < q <;> simp [admitQuote, gt_iff_lt, h]

theorem admitQuote_none (q : ℚ) (b : JVal) :
    admitQuote q b none = admitQuote q b (some initRec) := rfl

theorem le_foldlMax (l : List (ℚ × JVal)) (m : ℚ) :
    m ≤ l.foldl (fun m e => max m e.1) m := by
  induction l generalizing m with
  | nil => simp
  | cons a t ih => exact le_trans (le_max_left m a.1) (ih (max m a.1))

theorem mem_le_foldlMax (l : List (ℚ × JVal)) (m : ℚ) (x : ℚ × JVal) (hx : x ∈ l) :
    x.1 ≤ l.foldl (fun m e => max m e.1) m := by
  induction l generalizing m with
  | nil => cases hx
  | cons a t ih =>
    rcases List.mem_cons.mp hx with h | h
    · subst h
      exact le_trans (le_max_right m x.1) (le_foldlMax t (max m x.1))
    · exact ih (max m a.1) h

theorem foldlMax_eq_init_or_mem (l : List (ℚ × JVal)) (m : ℚ) :
    l.foldl (fun m e => max m e.1) m = m ∨
    ∃ x ∈ l, l.foldl (fun m e => max m e.1) m = x.1 := by
  induction l generalizing m with
  | nil => exact Or.inl rfl
  | cons a t ih =>
    simp only [List.foldl_cons]
    rcases ih (max m a.1) with h | ⟨x, hx, h⟩
    · by_cases hm : a.1 ≤ m
      · left
        rw [h, max_eq_left hm]
      · right
        refine ⟨a, List.mem_cons_self a t, ?_⟩
        rw [h, max_eq_right (le_of_not_le hm)]
    · exact Or.inr ⟨x, List.mem_cons_of_mem a hx, h⟩

theorem specMaxPrice_append (l : List (ℚ × JVal)) (e : ℚ × JVal) :
    specMaxPrice (l ++ [e]) = max (specMaxPrice l) e.1 := by
  unfold specMaxPrice
  rw [List.foldl_append]
  rfl

theorem specMaxPrice_mem_le (l : List (ℚ × JVal)) (x : ℚ × JVal) (hx : x ∈ l) :
    x.1 ≤ specMaxPrice l := mem_le_foldlMax l 0 x hx

theorem specMaxPrice_attained (l : List (ℚ × JVal)) (hne : l ≠ [])
    (hpos : ∀ e ∈ l, 0 < e.1) : ∃ x ∈ l, x.1 = specMaxPrice l := by
  rcases foldlMax_eq_init_or_mem l 0 with h | ⟨x, hx, h⟩
  · obtain ⟨a, ha⟩ := List.exists_mem_of_ne_nil l hne
    have h1 := specMaxPrice_mem_le l a ha
    have h2 := hpos a ha
    have hm0 : specMaxPrice l = 0 := h
    rw [hm0] at h1
    linarith
  · exact ⟨x, hx, h.symm⟩

theorem foldAdmissions_append (l : List (ℚ × JVal)) (e : ℚ × JVal) :
    foldAdmissions (l ++ [e]) = admitQuote e.1 e.2 (some (foldAdmissions l)) := by
  unfold foldAdmissions
  rw [List.foldl_append]
  rfl

/-- Characterisation of an outcome record built from a positive admission
sequence: the stored best price is the sequence maximum, the stored prices
are exactly the admitted prices, and the stored book is that of the
*first* admission equal to the maximum. -/
theorem foldAdmissions_spec (l : List (ℚ × JVal)) (hpos : ∀ e ∈ l, 0 < e.1) :
    (foldAdmissions l).prices = l.map Prod.fst ∧
    (foldAdmissions l).best_price = specMaxPrice l ∧
    (l ≠ [] → some (foldAdmissions l).book = specFirstMaxBook l) := by
  induction l using List.reverseRecOn with
  | nil => exact ⟨rfl, rfl, fun h => absurd rfl h⟩
  | append_singleton t e ih =>
    have hpos' : ∀ x ∈ t, 0 < x.1 := fun x hx => hpos x (List.mem_append_left _ hx)
    have hepos : 0 < e.1 := hpos e (List.mem_append_right _ (List.mem_cons_self e []))
    obtain ⟨ihp, ihb, ihbk⟩ := ih hpos'
    rw [foldAdmissions_append]
    refine ⟨?_, ?_, ?_⟩
    · rw [admitQuote_prices, ihp, List.map_append]
      rfl
    · rw [admitQuote_best, ihb, specMaxPrice_append]
    · intro _
      rw [admitQuote_book, ihb]
      by_cases hcmp : specMaxPrice t < e.1
      · rw [if_pos hcmp]
        unfold specFirstMaxBook
        rw [specMaxPrice_append, max_eq_right (le_of_lt hcmp), List.filter_append]
        have hft : t.filter (fun x => decide (x.1 = e.1)) = [] := by
          rw [List.filter_eq_nil]
          intro x hx
          have := specMaxPrice_mem_le t x hx
          simp only [decide_eq_true_eq]
          intro hxe
          rw [hxe] at this
          exact absurd hcmp (not_lt.mpr this)
        rw [hft, List.nil_append]
        simp
      · rw [if_neg hcmp]
        push_neg at hcmp
        have htne : t ≠ [] := by
          intro h0
          subst h0
          unfold specMaxPrice at hcmp
          simp at hcmp
          linarith
        have hmax : specMaxPrice (t ++ [e]) = specMaxPrice t := by
          rw [specMaxPrice_append, max_eq_left hcmp]
        unfold specFirstMaxBook
        rw [hmax, List.filter_append]
        obtain ⟨x, hx, hxm⟩ := specMaxPrice_attained t htne hpos'
        have hft : t.filter (fun x => decide (x.1 = specMaxPrice t)) ≠ [] := by
          intro h0
          have hall := List.filter_eq_nil.mp h0
          have hnx := hall x hx
          simp only [decide_eq_true_eq] at hnx
          exact hnx hxm
        rw [ihbk htne]
        unfold specFirstMaxBook
        cases hft' : t.filter (fun x => decide (x.1 = specMaxPrice t)) with
        | nil => exact absurd hft' hft
        | cons a as => simp [List.cons_append]

theorem alGet_alUpdate_self {κ β : Type} [DecidableEq κ] (k : κ) (f : Option β → β)
    (l : List (κ × β)) : alGet k (alUpdate k f l) = some (f (alGet k l)) := by
  induction l with
  | nil => simp [alGet, alUpdate]
  | cons e t ih =>
    obtain ⟨k', v⟩ := e
    by_cases h : k = k'
    · subst h
      simp [alGet, alUpdate]
    · simp [alGet, alUpdate, h, ih]

theorem alGet_alUpdate_ne {κ β : Type} [DecidableEq κ] {k k' : κ} (h : k' ≠ k)
    (f : Option β → β) (l : List (κ × β)) : alGet k' (alUpdate k f l) = alGet k' l := by
  induction l with
  | nil => simp [alGet, alUpdate, h]
  | cons e t ih =>
    obtain ⟨k'', v⟩ := e
    by_cases h2 : k = k''
    · subst h2
      simp [alGet, alUpdate, h]
    · by_cases h3 : k' = k''
      · subst h3
        simp [alGet, alUpdate, h2]
      · simp [alGet, alUpdate, h2, h3, ih]

/-- The per-(MarketKey, outcome) record stored in the market state. -/
def recIn (st : MarketState) (key : MarketKey) (out : String) : Option OutcomeRec :=
  alGet out ((alGet key st).getD [])

theorem recIn_updState_self (st : MarketState) (key : MarketKey) (out : String)
    (q : ℚ) (b : JVal) :
    recIn (updState st key out q b) key out = some (admitQuote q b (recIn st key out)) := by
  unfold recIn updState
  rw [alGet_alUpdate_self]
  simp only [Option.getD_some]
  rw [alGet_alUpdate_self]

theorem recIn_updState_ne (st : MarketState) (key : MarketKey) (out : String)
    (q : ℚ) (b : JVal) (key' : MarketKey) (out' : String)
    (h : ¬(key = key' ∧ out = out')) :
    recIn (updState st key out q b) key' out' = recIn st key' out' := by
  unfold recIn updState
  by_cases hk : key' = key
  · subst hk
    have hout : out' ≠ out := fun h0 => h ⟨rfl, h0.symm⟩
    rw [alGet_alUpdate_self]
    simp only [Option.getD_some]
    rw [alGet_alUpdate_ne hout]
  · rw [alGet_alUpdate_ne hk]

/-- All quotes of a batch admitted for a given MarketKey and outcome, in
batch order: the admitted decimal odds with the submitting sportsbook. -/
def admissionsFor (sport : String) (items : List JVal) (key : MarketKey) (out : String) :
    List (ℚ × JVal) :=
  items.filterMap (fun it =>
    match admissionOfItem sport it with
    | some (k, o, q, b) => if k = key ∧ o = out then some (q, b) else none
    | none => none)

theorem admitQuote_optGetD (q : ℚ) (b : JVal) (r0 : Option OutcomeRec) :
    admitQuote q b r0 = admitQuote q b (some (r0.getD initRec)) := by
  cases r0 <;> rfl

theorem phase1Item_state (sport : String) (it : JVal) (st st₁ : MarketState)
    (k? : Option MarketKey) (h : phase1Item sport it st = .ok (st₁, k?)) :
    (∀ k o q b, admissionOfItem sport it = some (k, o, q, b) → st₁ = updState st k o q b) ∧
    (admissionOfItem sport it = none → st₁ = st) := by
  cases it with
  | obj l =>
    simp only [phase1Item] at h
    cases hs : pyStrOrEmptyStrip (jget l "name") with
    | error e => rw [hs] at h; cases h
    | ok s =>
      rw [hs] at h
      cases ha : admissionOfItem sport (.obj l) with
      | some adm =>
        obtain ⟨k, o, q, b⟩ := adm
        rw [ha] at h
        injection h with h'
        injection h' with h1 h2
        refine ⟨fun k' o' q' b' he => ?_, fun he => absurd he (by simp)⟩
        injection he with he'
        injection he' with f1 f2
        injection f2 with f3 f4
        injection f4 with f5 f6
        subst f1; subst f3; subst f5; subst f6
        exact h1.symm
      | none =>
        rw [ha] at h
        injection h with h'
        injection h' with h1 h2
        refine ⟨fun k' o' q' b' he => absurd he (by simp), fun _ => h1.symm⟩
  | null => exact Except.noConfusion h
  | bool b => exact Except.noConfusion h
  | num q => exact Except.noConfusion h
  | str s => exact Except.noConfusion h
  | arr a => exact Except.noConfusion h

/-- The step function used to merge admitted quotes into a record. -/
def admitStep (r : OutcomeRec) (e : ℚ × JVal) : OutcomeRec := admitQuote e.1 e.2 (some r)

theorem foldAdmissions_eq_foldl (l : List (ℚ × JVal)) :
    foldAdmissions l = l.foldl admitStep initRec := rfl

/-- Merge a (possibly empty) admission sequence into an optional stored
record: no admissions leave the store untouched; otherwise the admissions
are folded over the existing record (or a fresh one). -/
def applyAdms (r0 : Option OutcomeRec) : List (ℚ × JVal) → Option OutcomeRec
  | [] => r0
  | e :: t => some ((e :: t).foldl admitStep (r0.getD initRec))

theorem applyAdms_append (r0 : Option OutcomeRec) (A1 A2 : List (ℚ × JVal)) :
    applyAdms r0 (A1 ++ A2) = applyAdms (applyAdms r0 A1) A2 := by
  cases A1 with
  | nil => rfl
  | cons a t1 =>
    cases A2 with
    | nil => simp [applyAdms]
    | cons b t2 =>
      simp only [applyAdms, List.cons_append, Option.getD_some]
      rw [List.foldl_cons, List.foldl_append]
      rfl

/-- After phase 1 of one batch, the record at `(key, out)` is the previous
record merged with that batch's admissions for `(key, out)`. -/
theorem phase1Aux_recIn (sport : String) (items : List JVal) :
    ∀ (st : MarketState) (acc : List MarketKey) (st' : MarketState) (keys : List MarketKey),
    phase1Aux sport items st acc = .ok (st', keys) → ∀ (key : MarketKey) (out : String),
    recIn st' key out =
      applyAdms (recIn st key out) (admissionsFor sport items key out) := by
  induction items with
  | nil =>
    intro st acc st' keys h key out
    unfold phase1Aux at h
    injection h with h'
    injection h' with h1 h2
    subst h1
    rfl
  | cons it rest ih =>
    intro st acc st' keys h key out
    unfold phase1Aux at h
    cases hstep : phase1Item sport it st with
    | error e =>
      rw [hstep] at h
      cases h
    | ok p =>
      obtain ⟨st₁, k?⟩ := p
      rw [hstep] at h
      simp only [Except.bind] at h
      obtain ⟨hsome, hnone⟩ := phase1Item_state sport it st st₁ k? hstep
      cases ha : admissionOfItem sport it with
      | none =>
        have hst : st₁ = st := hnone ha
        subst hst
        have hadm : admissionsFor sport (it :: rest) key out =
            admissionsFor sport rest key out := by
          unfold admissionsFor
          rw [List.filterMap_cons, ha]
        rw [hadm]
        exact ih st₁ _ st' keys h key out
      | some adm =>
        obtain ⟨k, o, q, b⟩ := adm
        have hst : st₁ = updState st k o q b := hsome k o q b ha
        subst hst
        by_cases hko : k = key ∧ o = out
        · obtain ⟨hk, ho⟩ := hko
          subst hk; subst ho
          have hadm : admissionsFor sport (it :: rest) k o =
              (q, b) :: admissionsFor sport rest k o := by
            unfold admissionsFor
            rw [List.filterMap_cons, ha]
            simp
          rw [hadm]
          have hrec1 : recIn (updState st k o q b) k o =
              some (admitQuote q b (recIn st k o)) := recIn_updState_self st k o q b
          have hmain := ih _ _ st' keys h k o
          rw [hrec1] at hmain
          have hone : some (admitQuote q b (recIn st k o)) =
              applyAdms (recIn st k o) [(q, b)] := by
            simp only [applyAdms, List.foldl_cons, List.foldl_nil]
            rw [admitQuote_optGetD]
            rfl
          rw [hone] at hmain
          rw [hmain, ← applyAdms_append]
          rfl
        · have hadm : admissionsFor sport (it :: rest) key out =
              admissionsFor sport rest key out := by
            unfold admissionsFor
            rw [List.filterMap_cons, ha]
            simp [hko]
          rw [hadm]
          have hrec1 : recIn (updState st k o q b) key out = recIn st key out :=
            recIn_updState_ne st k o q b key out hko
          have hmain := ih _ _ st' keys h key out
          rw [hrec1] at hmain
          exact hmain

/-- Run a sequence of batches (each with its sport) through
`process_odds_batch`, starting from a given market state and EV cache. -/
def runBatches : List (String × List JVal) → MarketState → EvCache →
    Except Unit (MarketState × EvCache)
  | [], st, c => .ok (st, c)
  | (sp, items) :: rest, st, c => do
    let (st', c', _, _) ← process_odds_batch sp items st c
    runBatches rest st' c'

/-- All quotes admitted for `(key, out)` across a batch sequence, in order. -/
def admissionsForBatches (batches : List (String × List JVal)) (key : MarketKey)
    (out : String) : List (ℚ × JVal) :=
  (batches.map (fun b => admissionsFor b.1 b.2 key out)).flatten

theorem process_odds_batch_state (sport : String) (items : List JVal)
    (st st' : MarketState) (c c' : EvCache) (evs : List EvRec) (arbs : List ArbRec)
    (h : process_odds_batch sport items st c = .ok (st', c', evs, arbs)) (key : MarketKey)
    (out : String) :
    recIn st' key out = applyAdms (recIn st key out) (admissionsFor sport items key out) := by
  cases hp : phase1Aux sport items st [] with
  | error e =>
    have hdef : process_odds_batch sport items st c = .error e := by
      unfold process_odds_batch
      rw [hp]
      rfl
    rw [hdef] at h
    cases h
  | ok p =>
    obtain ⟨st₁, keysRaw⟩ := p
    have hdef : ∃ rest, process_odds_batch sport items st c = .ok (st₁, rest) := by
      unfold process_odds_batch
      rw [hp]
      exact ⟨_, rfl⟩
    obtain ⟨rest, hdef⟩ := hdef
    rw [hdef] at h
    have hst : st₁ = st' := by
      have h2 := h
      simp only [Except.ok.injEq, Prod.mk.injEq] at h2
      exact h2.1
    subst hst
    exact phase1Aux_recIn sport items st [] st₁ keysRaw hp key out

theorem runBatches_recIn (batches : List (String × List JVal)) :
    ∀ (st : MarketState) (c : EvCache) (st' : MarketState) (c' : EvCache),
    runBatches batches st c = .ok (st', c') → ∀ (key : MarketKey) (out : String),
    recIn st' key out =
      applyAdms (recIn st key out) (admissionsForBatches batches key out) := by
  induction batches with
  | nil =>
    intro st c st' c' h key out
    unfold runBatches at h
    injection h with h'
    injection h' with h1 h2
    subst h1
    rfl
  | cons b rest ih =>
    intro st c st' c' h key out
    obtain ⟨sp, items⟩ := b
    unfold runBatches at h
    cases hp : process_odds_batch sp items st c with
    | error e => rw [hp] at h; cases h
    | ok p =>
      obtain ⟨st₁, c₁, evs, arbs⟩ := p
      rw [hp] at h
      simp only [Except.bind] at h
      have h1 := process_odds_batch_state sp items st st₁ c c₁ evs arbs hp key out
      have h2 := ih st₁ c₁ st' c' h key out
      rw [h2, h1]
      unfold admissionsForBatches
      simp only [List.map_cons, List.flatten_cons, applyAdms_append]

theorem firstSome_eq_some {α β : Type} (f : α → Option β) (L : List α) (b : β)
    (h : firstSome f L = some b) : ∃ a ∈ L, f a = some b := by
  induction L with
  | nil => cases h
  | cons a t ih =>
    unfold firstSome at h
    cases hf : f a with
    | some v =>
      rw [hf] at h
      injection h with h'
      exact ⟨a, List.mem_cons_self a t, by rw [hf, h']⟩
    | none =>
      rw [hf] at h
      obtain ⟨x, hx, hfx⟩ := ih h
      exact ⟨x, List.mem_cons_of_mem a hx, hfx⟩

theorem scanOdds_prop (srcs : List (List (String × JVal))) (keys : List String)
    (accept : ℚ → Option ℚ) (P : ℚ → Prop)
    (hacc : ∀ q r, accept q = some r → P r) (v : ℚ)
    (h : scanOdds srcs keys accept = some v) : P v := by
  unfold scanOdds at h
  obtain ⟨src, _, h1⟩ := firstSome_eq_some _ _ _ h
  obtain ⟨k, _, h2⟩ := firstSome_eq_some _ _ _ h1
  obtain ⟨q, hq, hacc'⟩ := Option.bind_eq_some.mp h2
  exact hacc q v hacc'

theorem american_to_decimal_gt_one (a d : ℚ) (h : american_to_decimal a = some d) :
    1 < d := by
  unfold american_to_decimal at h
  by_cases h1 : (100 : ℚ) ≤ a
  · rw [if_pos h1] at h
    injection h with h'
    rw [← h']
    have : (1 : ℚ) ≤ a / 100 := by linarith
    linarith
  · rw [if_neg h1] at h
    by_cases h2 : a ≤ (-100 : ℚ)
    · rw [if_pos h2] at h
      injection h with h'
      rw [← h']
      have hx : (0 : ℚ) < -a := by linarith
      have : (0 : ℚ) < 100 / (-a) := by positivity
      linarith
    · rw [if_neg h2] at h
      cases h

theorem parse_decimal_odds_gt_one (l : List (String × JVal)) (q : ℚ)
    (h : parse_decimal_odds l = some q) : 1 < q := by
  have hdec : ∀ f r : ℚ, (if f ≥ 1.01 then some f else none) = some r → 1 < r := by
    intro f r hfr
    by_cases hf : (1.01 : ℚ) ≤ f
    · rw [if_pos hf] at hfr
      injection hfr with h'
      rw [← h']
      have : (1.01 : ℚ) = 101/100 := by norm_num
      linarith [hf]
    · rw [if_neg hf] at hfr
      cases hfr
  have ham : ∀ f r : ℚ,
      ((american_to_decimal f).bind fun d => if d = 0 then none else some d) = some r →
      1 < r := by
    intro f r hfr
    obtain ⟨d, hd, hdr⟩ := Option.bind_eq_some.mp hfr
    have := american_to_decimal_gt_one f d hd
    by_cases h0 : d = 0
    · rw [if_pos h0] at hdr
      cases hdr
    · rw [if_neg h0] at hdr
      injection hdr with h'
      rw [← h']
      exact this
  unfold parse_decimal_odds at h
  cases h1 : scanOdds (srcsOf l) decKeys (fun f => if f ≥ 1.01 then some f else none) with
  | some f =>
    rw [h1] at h
    injection h with h'
    subst h'
    exact scanOdds_prop _ _ _ _ hdec _ h1
  | none =>
    rw [h1] at h
    cases h2 : scanOdds (srcsOf l) amKeys
        (fun f => (american_to_decimal f).bind fun d => if d = 0 then none else some d) with
    | some d =>
      rw [h2] at h
      injection h with h'
      subst h'
      exact scanOdds_prop _ _ _ _ ham _ h2
    | none =>
      rw [h2] at h
      exact scanOdds_prop _ _ _ _ hdec _ h

theorem admissionOfItem_gt_one (sport : String) (it : JVal) (k : MarketKey) (o : String)
    (q : ℚ) (b : JVal) (h : admissionOfItem sport it = some (k, o, q, b)) : 1 < q := by
  cases it with
  | obj l =>
    simp only [admissionOfItem] at h
    split at h
    · exact Option.noConfusion h
    · split at h
      · exact Option.noConfusion h
      · split at h
        · exact Option.noConfusion h
        · rename_i odds hp
          split at h
          · exact Option.noConfusion h
          · injection h with h'
            injection h' with f1 f2
            injection f2 with f3 f4
            injection f4 with f5 f6
            subst f5
            exact parse_decimal_odds_gt_one l odds hp
  | null => exact Option.noConfusion h
  | bool b' => exact Option.noConfusion h
  | num q' => exact Option.noConfusion h
  | str s => exact Option.noConfusion h
  | arr a => exact Option.noConfusion h

theorem admissionsFor_pos (sport : String) (items : List JVal) (key : MarketKey)
    (out : String) (e : ℚ × JVal) (he : e ∈ admissionsFor sport items key out) :
    1 < e.1 := by
  unfold admissionsFor at he
  obtain ⟨it, hit, hf⟩ := List.mem_filterMap.mp he
  split at hf
  · rename_i k o q b ha
    split at hf
    · injection hf with h'
      have hq := admissionOfItem_gt_one sport it k o q b ha
      rw [← h']
      exact hq
    · exact Option.noConfusion hf
  · exact Option.noConfusion hf

theorem admissionsForBatches_pos (batches : List (String × List JVal)) (key : MarketKey)
    (out : String) (e : ℚ × JVal) (he : e ∈ admissionsForBatches batches key out) :
    0 < e.1 := by
  unfold admissionsForBatches at he
  obtain ⟨l, hl, hel⟩ := List.mem_flatten.mp he
  obtain ⟨b, hb, hbl⟩ := List.mem_map.mp hl
  subst hbl
  have := admissionsFor_pos b.1 b.2 key out e hel
  linarith

/-- **C1 counterexample** — latest-write-wins is false: two quotes at the
same price 2.0 from books X then Y leave `best_book = "X"` (the update
requires a *strict* improvement), while the most recent admitted price
equal to the maximum came from "Y". -/
theorem C1_counterexample :
    (process_odds_batch "basketball"
        [mkQuote "moneyline" "A" "X" 2 "F", mkQuote "moneyline" "A" "Y" 2 "F"]
        [] []).toOption.map
        (fun r => recIn r.1 ("basketball", "F", "moneyline", false) "A") =
      some (some { best_price := 2, book := JVal.str "X", prices := [2, 2] }) ∧
    specLastMaxBook [(2, JVal.str "X"), (2, JVal.str "Y")] = some (JVal.str "Y") ∧
    JVal.str "X" ≠ JVal.str "Y" := by
  refine ⟨by with_unfolding_all rfl, by with_unfolding_all rfl, ?_⟩
  intro h
  injection h with h'
  exact absurd h' (by decide)

/-- **C1 (amended)** — for every batch sequence run from the empty state and
every MarketKey and outcome, the stored record holds exactly the admitted
prices, `best_price` equals their maximum, and `best_book` is the
sportsbook of the **earliest** admitted price equal to that maximum (ties
broken first-write-wins, because the update fires only on a strict
improvement). -/
theorem C1_best_price_book (batches : List (String × List JVal)) (st' : MarketState)
    (c' : EvCache) (key : MarketKey) (out : String) (rec : OutcomeRec)
    (hrun : runBatches batches [] [] = .ok (st', c'))
    (hrec : recIn st' key out = some rec) :
    rec.prices = (admissionsForBatches batches key out).map Prod.fst ∧
    rec.best_price = specMaxPrice (admissionsForBatches batches key out) ∧
    some rec.book = specFirstMaxBook (admissionsForBatches batches key out) := by
  have hchar := runBatches_recIn batches [] [] st' c' hrun key out
  rw [hrec] at hchar
  have hempty : recIn ([] : MarketState) key out = none := rfl
  rw [hempty] at hchar
  cases hA : admissionsForBatches batches key out with
  | nil =>
    rw [hA] at hchar
    cases hchar
  | cons a t =>
    rw [hA] at hchar
    simp only [applyAdms] at hchar
    injection hchar with h'
    have hpos : ∀ e ∈ a :: t, 0 < e.1 := by
      intro e hel
      have : e ∈ admissionsForBatches batches key out := by rw [hA]; exact hel
      exact admissionsForBatches_pos batches key out e this
    have hspec := foldAdmissions_spec (a :: t) hpos
    have hfold : foldAdmissions (a :: t) = rec := by
      rw [foldAdmissions_eq_foldl]
      simp only [Option.getD_none] at h'
      exact h'.symm
    rw [hfold] at hspec
    exact ⟨hspec.1, hspec.2.1, hspec.2.2 (by simp)⟩

def c1Key : MarketKey := ("basketball", "F", "moneyline", false)

def c1Batches : List (String × List JVal) :=
  [("basketball", [mkQuote "moneyline" "A" "X" (5/2) "F"])]

def c1St : MarketState :=
  [(c1Key, [("A", { best_price := 5/2, book := .str "X", prices := [5/2] })])]

/-- Witness for C1 on a one-quote batch: the stored record is exactly the
fold of its (single) admission. -/
theorem C1_best_price_book_witness :
    ({ best_price := 5/2, book := JVal.str "X", prices := [5/2] } : OutcomeRec).prices =
      (admissionsForBatches c1Batches c1Key "A").map Prod.fst ∧
    ({ best_price := 5/2, book := JVal.str "X", prices := [5/2] } : OutcomeRec).best_price =
      specMaxPrice (admissionsForBatches c1Batches c1Key "A") ∧
    some ({ best_price := 5/2, book := JVal.str "X", prices := [5/2] } : OutcomeRec).book =
      specFirstMaxBook (admissionsForBatches c1Batches c1Key "A") :=
  C1_best_price_book c1Batches c1St [] c1Key "A" _
    (by with_unfolding_all rfl) (by with_unfolding_all rfl)

/-! ### C9: error behaviour of `process_odds_batch` -/

/-- **C9 counterexample** — `process_odds_batch` *does* raise: a quote whose
`name` field is the integer 5 hits `(it.get("name") or "").strip()` in
phase 1, which has no per-item exception handler, so the whole batch is
lost (AttributeError propagates to the caller). -/
theorem C9_counterexample :
    process_odds_batch "basketball"
      [.obj [("market", .str "moneyline"), ("name", .num 5), ("sportsbook", .str "X"),
             ("odds", .num 2), ("id", .str "F")]] [] [] = .error () := by
  with_unfolding_all rfl

/-- A quote item phase 1 can process without raising: a dict whose `name`
field is a string or falsy. -/
def nameFieldOk (it : JVal) : Bool :=
  match it with
  | .obj l =>
    match jget l "name" with
    | .str _ => true
    | v => !pyTruthy v
  | _ => false

theorem phase1Item_ok_of_nameFieldOk (sport : String) (it : JVal) (st : MarketState)
    (h : nameFieldOk it = true) : ∃ p, phase1Item sport it st = .ok p := by
  cases it with
  | obj l =>
    have hstrip : ∃ s, pyStrOrEmptyStrip (jget l "name") = .ok s := by
      simp only [nameFieldOk] at h
      unfold pyStrOrEmptyStrip
      by_cases ht : pyTruthy (jget l "name") = true
      · rw [if_pos ht]
        cases hn : jget l "name" with
        | str s => exact ⟨pyStrip s, rfl⟩
        | null => simp_all [pyTruthy]
        | bool b => simp_all [pyTruthy]
        | num q => simp_all [pyTruthy]
        | arr a => simp_all [pyTruthy]
        | obj o => simp_all [pyTruthy]
      · rw [if_neg ht]
        exact ⟨"", rfl⟩
    obtain ⟨s, hs⟩ := hstrip
    refine ⟨?_, ?_⟩
    · exact (match admissionOfItem sport (.obj l) with
        | some (key, out, odds, sb) => (updState st key out odds sb, some key)
        | none => (st, none))
    · simp only [phase1Item]
      rw [hs]
  | null => simp [nameFieldOk] at h
  | bool b => simp [nameFieldOk] at h
  | num q => simp [nameFieldOk] at h
  | str s => simp [nameFieldOk] at h
  | arr a => simp [nameFieldOk] at h

theorem phase1Aux_ok_of_nameFieldOk (sport : String) (items : List JVal)
    (h : ∀ it ∈ items, nameFieldOk it = true) :
    ∀ (st : MarketState) (acc : List MarketKey),
    ∃ r, phase1Aux sport items st acc = .ok r := by
  induction items with
  | nil => exact fun st acc => ⟨(st, acc), rfl⟩
  | cons it rest ih =>
    intro st acc
    obtain ⟨p, hp⟩ := phase1Item_ok_of_nameFieldOk sport it st
      (h it (List.mem_cons_self it rest))
    obtain ⟨st₁, k?⟩ := p
    cases k? with
    | some k =>
      obtain ⟨r, hr⟩ := ih (fun x hx => h x (List.mem_cons_of_mem it hx)) st₁ (acc ++ [k])
      refine ⟨r, ?_⟩
      unfold phase1Aux
      rw [hp]
      exact hr
    | none =>
      obtain ⟨r, hr⟩ := ih (fun x hx => h x (List.mem_cons_of_mem it hx)) st₁ acc
      refine ⟨r, ?_⟩
      unfold phase1Aux
      rw [hp]
      exact hr

/-- **C9 (amended)** — `process_odds_batch` returns normally (no exception)
for every batch of dict quotes whose `name` fields are strings or falsy:
the guards of phase 1 and the per-item `try/except` of phase 2 turn every
other malformed, missing or wrongly-typed field into skipping just that
quote.  (A non-dict item, or a truthy non-string `name`, raises out of the
whole batch — the counterexample.) -/
theorem C9_no_raise (sport : String) (items : List JVal)
    (h : ∀ it ∈ items, nameFieldOk it = true) (st : MarketState) (c : EvCache) :
    ∃ res, process_odds_batch sport items st c = .ok res := by
  obtain ⟨r, hr⟩ := phase1Aux_ok_of_nameFieldOk sport items h st []
  obtain ⟨st₁, keys⟩ := r
  unfold process_odds_batch
  rw [hr]
  exact ⟨_, rfl⟩

/-- Witness for C9: a well-formed and a field-degraded quote (missing
sportsbook) process without raising. -/
theorem C9_no_raise_witness :
    ∃ res, process_odds_batch "basketball"
      [mkQuote "moneyline" "A" "X" 2 "F",
       .obj [("market", .str "moneyline"), ("name", .str "B"), ("odds", .num 3)]]
      [] [] = .ok res :=
  C9_no_raise "basketball" _ (by decide) [] []

/-! ### C5: EV emission -/

/-- A batch affects a MarketKey when some item admits a quote for it. -/
def batchAffects (sport : String) (items : List JVal) (key : MarketKey) : Prop :=
  ∃ it ∈ items, ∃ o q b, admissionOfItem sport it = some (key, o, q, b)

theorem phase1Aux_keys (sport : String) (items : List JVal) :
    ∀ (st : MarketState) (acc : List MarketKey) (st' : MarketState) (keys : List MarketKey),
    phase1Aux sport items st acc = .ok (st', keys) → ∀ k : MarketKey,
    (k ∈ keys ↔ k ∈ acc ∨ batchAffects sport items k) := by
  induction items with
  | nil =>
    intro st acc st' keys h k
    unfold phase1Aux at h
    injection h with h'
    injection h' with h1 h2
    subst h2
    simp [batchAffects]
  | cons it rest ih =>
    intro st acc st' keys h k
    unfold phase1Aux at h
    cases hstep : phase1Item sport it st with
    | error e => rw [hstep] at h; cases h
    | ok p =>
      obtain ⟨st₁, k?⟩ := p
      rw [hstep] at h
      simp only [Except.bind] at h
      have hkof : k? = (admissionOfItem sport it).map (fun a => a.1) := by
        cases it with
        | obj l =>
          simp only [phase1Item] at hstep
          cases hs : pyStrOrEmptyStrip (jget l "name") with
          | error e => rw [hs] at hstep; cases hstep
          | ok s =>
            rw [hs] at hstep
            cases ha : admissionOfItem sport (.obj l) with
            | some adm =>
              obtain ⟨k0, o0, q0, b0⟩ := adm
              rw [ha] at hstep
              injection hstep with h'
              injection h' with h1 h2
              rw [← h2]
              rfl
            | none =>
              rw [ha] at hstep
              injection hstep with h'
              injection h' with h1 h2
              rw [← h2]
              rfl
        | null => exact Except.noConfusion hstep
        | bool b => exact Except.noConfusion hstep
        | num q => exact Except.noConfusion hstep
        | str s => exact Except.noConfusion hstep
        | arr a => exact Except.noConfusion hstep
      cases ha : admissionOfItem sport it with
      | none =>
        rw [ha] at hkof
        simp only [Option.map_none'] at hkof
        subst hkof
        have hmain := ih st₁ acc st' keys h k
        rw [hmain]
        unfold batchAffects
        constructor
        · rintro (hacc | haff)
          · exact Or.inl hacc
          · obtain ⟨x, hx, hadm⟩ := haff
            exact Or.inr ⟨x, List.mem_cons_of_mem it hx, hadm⟩
        · rintro (hacc | haff)
          · exact Or.inl hacc
          · obtain ⟨x, hx, o, q, b, hadm⟩ := haff
            rcases List.mem_cons.mp hx with hxx | hxx
            · subst hxx
              rw [ha] at hadm
              cases hadm
            · exact Or.inr ⟨x, hxx, o, q, b, hadm⟩
      | some adm =>
        obtain ⟨k0, o0, q0, b0⟩ := adm
        rw [ha] at hkof
        simp only [Option.map_some'] at hkof
        subst hkof
        have hmain := ih st₁ (acc ++ [k0]) st' keys h k
        rw [hmain]
        unfold batchAffects
        constructor
        · rintro (hacc | haff)
          · rcases List.mem_append.mp hacc with hl | hr
            · exact Or.inl hl
            · have hk0 : k = k0 := by simpa using hr
              subst hk0
              exact Or.inr ⟨it, List.mem_cons_self it rest, o0, q0, b0, ha⟩
          · obtain ⟨x, hx, hadm⟩ := haff
            exact Or.inr ⟨x, List.mem_cons_of_mem it hx, hadm⟩
        · rintro (hacc | haff)
          · exact Or.inl (List.mem_append_left _ hacc)
          · obtain ⟨x, hx, o, q, b, hadm⟩ := haff
            rcases List.mem_cons.mp hx with hxx | hxx
            · subst hxx
              rw [ha] at hadm
              have hk0 : k0 = k := by
                have h2 := hadm
                simp only [Option.some.injEq, Prod.mk.injEq] at h2
                exact h2.1
              subst hk0
              exact Or.inl (List.mem_append_right _ (by simp))
            · exact Or.inr ⟨x, hxx, o, q, b, hadm⟩

theorem mem_dedupFirstAux {α : Type} [DecidableEq α] (l : List α) :
    ∀ (seen : List α) (x : α), x ∈ dedupFirstAux seen l ↔ x ∈ l ∧ x ∉ seen := by
  induction l with
  | nil => intro seen x; simp [dedupFirstAux]
  | cons a t ih =>
    intro seen x
    unfold dedupFirstAux
    by_cases ha : a ∈ seen
    · rw [if_pos ha, ih]
      constructor
      · rintro ⟨hx, hs⟩
        exact ⟨List.mem_cons_of_mem a hx, hs⟩
      · rintro ⟨hx, hs⟩
        rcases List.mem_cons.mp hx with hxx | hxx
        · subst hxx
          exact absurd ha hs
        · exact ⟨hxx, hs⟩
    · rw [if_neg ha]
      constructor
      · intro hx
        rcases List.mem_cons.mp hx with hxx | hxx
        · subst hxx
          exact ⟨List.mem_cons_self x t, ha⟩
        · obtain ⟨h1, h2⟩ := (ih (a :: seen) x).mp hxx
          have : x ∉ seen := fun hc => h2 (List.mem_cons_of_mem a hc)
          exact ⟨List.mem_cons_of_mem a h1, this⟩
      · rintro ⟨hx, hs⟩
        rcases List.mem_cons.mp hx with hxx | hxx
        · subst hxx
          exact List.mem_cons_self x _
        · by_cases hxa : x = a
          · subst hxa
            exact List.mem_cons_self x _
          · refine List.mem_cons_of_mem a ((ih (a :: seen) x).mpr ⟨hxx, ?_⟩)
            intro hc
            rcases List.mem_cons.mp hc with h1 | h1
            · exact hxa h1
            · exact hs h1

theorem mem_dedupFirst {α : Type} [DecidableEq α] (l : List α) (x : α) :
    x ∈ dedupFirst l ↔ x ∈ l := by
  unfold dedupFirst
  rw [mem_dedupFirstAux]
  simp

/-- The EV records one affected key contributes: when fair probabilities
were derived, exactly one record per input item accepted by `evForItem`. -/
def evsOfKey (items : List JVal) (st : MarketState) (key : MarketKey) : List EvRec :=
  let om := (alGet key st).getD []
  let fair := fairProbsOf key.2.2.1 (baseProbsOf (bestOf om))
  if fair.isEmpty then [] else items.filterMap (evForItem key fair)

theorem evLoop_foldl (key : MarketKey) (fair : List (String × ℚ)) (items : List JVal) :
    ∀ (c0 : EvCache) (evs0 : List EvRec),
    (items.foldl (fun (acc : EvCache × List EvRec) it =>
      match evForItem key fair it with
      | none => acc
      | some r => (cacheUpd acc.1 r, acc.2 ++ [r])) (c0, evs0)).2 =
      evs0 ++ items.filterMap (evForItem key fair) := by
  induction items with
  | nil =>
    intro c0 evs0
    simp
  | cons it rest ih =>
    intro c0 evs0
    rw [List.foldl_cons, List.filterMap_cons]
    cases hf : evForItem key fair it with
    | none => exact ih c0 evs0
    | some r =>
      have h2 := ih (cacheUpd c0 r) (evs0 ++ [r])
      simpa using h2

theorem processKey_evs (items : List JVal) (st : MarketState) (key : MarketKey)
    (cache : EvCache) : (processKey items st key cache).2.1 = evsOfKey items st key := by
  unfold processKey evsOfKey
  by_cases hf : (fairProbsOf key.2.2.1 (baseProbsOf (bestOf ((alGet key st).getD [])))).isEmpty
  · simp only [hf, if_true]
  · simp only [hf, if_false, Bool.false_eq_true]
    rw [evLoop_foldl]
    rfl

/-- The cache-threaded fold over affected keys produces, in the EV
component, the concatenation of each key's EV records. -/
theorem keysFold_evs (items : List JVal) (st : MarketState) (keys : List MarketKey) :
    ∀ (c0 : EvCache) (evs0 : List EvRec) (arbs0 : List ArbRec),
    (keys.foldl (fun (acc : EvCache × List EvRec × List ArbRec) key =>
      ((processKey items st key acc.1).1, acc.2.1 ++ (processKey items st key acc.1).2.1,
        match (processKey items st key acc.1).2.2 with
        | some a => acc.2.2 ++ [a]
        | none => acc.2.2)) (c0, evs0, arbs0)).2.1 =
      evs0 ++ (keys.map (fun k => evsOfKey items st k)).flatten := by
  induction keys with
  | nil =>
    intro c0 evs0 arbs0
    simp
  | cons k t ih =>
    intro c0 evs0 arbs0
    rw [List.foldl_cons, List.map_cons, List.flatten_cons]
    rw [ih]
    rw [processKey_evs]
    simp

/-- **C5 (amended)** — the published EV list of a batch: for every affected
MarketKey with derived fair probabilities, exactly one EV record appears
per input item accepted by the EV loop (`evForItem`), whose matching is by
the lower-cased **raw** `market` field — not the composed market used for
the MarketKey — so a quote whose key was formed by prepending a
period/segment/type field never matches its own key (the counterexample);
each such record's `ev_value` is `(fair_prob · decimal_odds − 1) × 100`
rounded to 3 dp. -/
theorem C5_ev_emission (sport : String) (items : List JVal) (st : MarketState)
    (cache : EvCache) (st' : MarketState) (cache' : EvCache) (evs : List EvRec)
    (arbs : List ArbRec)
    (hrun : process_odds_batch sport items st cache = .ok (st', cache', evs, arbs)) :
    ∃ keys : List MarketKey,
      (∀ k : MarketKey, k ∈ keys ↔ batchAffects sport items k) ∧
      evs = (keys.map (fun k => evsOfKey items st' k)).flatten := by
  cases hp : phase1Aux sport items st [] with
  | error e =>
    have hdef : process_odds_batch sport items st cache = .error e := by
      unfold process_odds_batch
      rw [hp]
      rfl
    rw [hdef] at hrun
    cases hrun
  | ok p =>
    obtain ⟨st₁, keysRaw⟩ := p
    have hdef : process_odds_batch sport items st cache =
        .ok (st₁,
          ((dedupFirst keysRaw).foldl (fun (acc : EvCache × List EvRec × List ArbRec) key =>
            ((processKey items st₁ key acc.1).1,
              acc.2.1 ++ (processKey items st₁ key acc.1).2.1,
              match (processKey items st₁ key acc.1).2.2 with
              | some a => acc.2.2 ++ [a]
              | none => acc.2.2)) (cache, [], [])).1,
          ((dedupFirst keysRaw).foldl (fun (acc : EvCache × List EvRec × List ArbRec) key =>
            ((processKey items st₁ key acc.1).1,
              acc.2.1 ++ (processKey items st₁ key acc.1).2.1,
              match (processKey items st₁ key acc.1).2.2 with
              | some a => acc.2.2 ++ [a]
              | none => acc.2.2)) (cache, [], [])).2.1,
          ((dedupFirst keysRaw).foldl (fun (acc : EvCache × List EvRec × List ArbRec) key =>
            ((processKey items st₁ key acc.1).1,
              acc.2.1 ++ (processKey items st₁ key acc.1).2.1,
              match (processKey items st₁ key acc.1).2.2 with
              | some a => acc.2.2 ++ [a]
              | none => acc.2.2)) (cache, [], [])).2.2) := by
      unfold process_odds_batch
      rw [hp]
      rfl
    rw [hdef] at hrun
    have hst : st₁ = st' := by
      have h2 := hrun
      simp only [Except.ok.injEq, Prod.mk.injEq] at h2
      exact h2.1
    subst hst
    have hevs : evs = ((dedupFirst keysRaw).map (fun k => evsOfKey items st₁ k)).flatten := by
      have h2 := hrun
      simp only [Except.ok.injEq, Prod.mk.injEq] at h2
      have h3 := h2.2.2.1
      rw [← h3, keysFold_evs]
      simp
    refine ⟨dedupFirst keysRaw, ?_, hevs⟩
    intro k
    rw [mem_dedupFirst]
    have := phase1Aux_keys sport items st [] st₁ keysRaw hp k
    simpa using this

def c5Items : List JVal :=
  [.obj [("market", .str "moneyline"), ("period", .str "q1"), ("name", .str "A"),
         ("sportsbook", .str "X"), ("odds", .num 2), ("id", .str "F")],
   .obj [("market", .str "moneyline"), ("period", .str "q1"), ("name", .str "B"),
         ("sportsbook", .str "Y"), ("odds", .num 2), ("id", .str "F")]]

/-- **C5 counterexample** — two quotes whose MarketKey was formed by
prepending the `period` field ("q1 moneyline"): fair probabilities are
derived for that key (1/2 each), the quotes' fixture and outcomes match,
their odds parse — yet the batch publishes **no** EV record, because the
EV loop compares `normalize_market(it.get("market"))` ("moneyline"),
never the composed market. -/
theorem C5_counterexample :
    (admissionOfItem "basketball" (.obj [("market", .str "moneyline"),
        ("period", .str "q1"), ("name", .str "A"), ("sportsbook", .str "X"),
        ("odds", .num 2), ("id", .str "F")])).map (fun a => a.1) =
      some ("basketball", "F", "q1 moneyline", false) ∧
    (process_odds_batch "basketball" c5Items [] []).toOption.map (fun r =>
      (r.2.2.1,
       fairProbsOf "q1 moneyline"
         (baseProbsOf (bestOf ((alGet ("basketball", "F", "q1 moneyline", false) r.1).getD []))))) =
      some ([], [("A", 1/2), ("B", 1/2)]) := by
  exact ⟨by with_unfolding_all rfl, by with_unfolding_all rfl⟩

def c5wItems : List JVal :=
  [mkQuote "moneyline" "A" "X" 2 "F", mkQuote "moneyline" "B" "Y" 2 "F"]

def c5wSt : MarketState :=
  [(("basketball", "F", "moneyline", false),
    [("A", { best_price := 2, book := .str "X", prices := [2] }),
     ("B", { best_price := 2, book := .str "Y", prices := [2] })])]

def c5wCache : EvCache :=
  [(("F", "x", "moneyline", "a"), 0), (("F", "y", "moneyline", "b"), 0)]

def c5wEvs : List EvRec :=
  [{ sport := "basketball", fixture_id := "F", market := "moneyline", name := "A",
     price := 2, sportsbook := .str "X", is_live := false, ev_value := 0 },
   { sport := "basketball", fixture_id := "F", market := "moneyline", name := "B",
     price := 2, sportsbook := .str "Y", is_live := false, ev_value := 0 }]

/-- Witness for C5 on a plain two-outcome moneyline batch: both quotes
yield one EV record each. -/
theorem C5_ev_emission_witness :
    ∃ keys : List MarketKey,
      (∀ k : MarketKey, k ∈ keys ↔ batchAffects "basketball" c5wItems k) ∧
      c5wEvs = (keys.map (fun k => evsOfKey c5wItems c5wSt k)).flatten :=
  C5_ev_emission "basketball" c5wItems [] [] c5wSt c5wCache c5wEvs []
    (by with_unfolding_all rfl)

/-! ### C8: filter monotonicity -/

theorem any_mono {α : Type} {l l' : List α} (h : ∀ x ∈ l, x ∈ l') (p : α → Bool)
    (ha : l.any p = true) : l'.any p = true := by
  rw [List.any_eq_true] at ha ⊢
  obtain ⟨x, hx, hp⟩ := ha
  exact ⟨x, h x hx, hp⟩

theorem contains_mono {l l' : List String} (h : ∀ x ∈ l, x ∈ l') (v : String)
    (hc : l.contains v = true) : l'.contains v = true := by
  have hm : v ∈ l := by simpa using hc
  simpa using h v hm

theorem normalize_filter_values_mono {l l' : List String} (h : ∀ x ∈ l, x ∈ l') :
    ∀ x ∈ normalize_filter_values l, x ∈ normalize_filter_values l' := by
  intro x hx
  unfold normalize_filter_values at hx ⊢
  obtain ⟨y, hy, hxy⟩ := List.mem_map.mp hx
  obtain ⟨hy1, hy2⟩ := List.mem_filter.mp hy
  obtain ⟨z, hz, hzy⟩ := List.mem_map.mp hy1
  refine List.mem_map.mpr ⟨y, List.mem_filter.mpr ⟨?_, hy2⟩, hxy⟩
  exact List.mem_map.mpr ⟨z, h z hz, hzy⟩

theorem map_mono {α β : Type} {l l' : List α} (h : ∀ x ∈ l, x ∈ l') (f : α → β) :
    ∀ x ∈ l.map f, x ∈ l'.map f := by
  intro x hx
  obtain ⟨y, hy, hxy⟩ := List.mem_map.mp hx
  exact List.mem_map.mpr ⟨y, h y hy, hxy⟩

theorem nfv_isEmpty_of_subset {l l' : List String} (h : ∀ x ∈ l, x ∈ l')
    (he : (normalize_filter_values l').isEmpty = true) :
    (normalize_filter_values l).isEmpty = true := by
  rw [List.isEmpty_iff] at he ⊢
  cases hc : normalize_filter_values l with
  | nil => rfl
  | cons a t =>
    have ha : a ∈ normalize_filter_values l := by rw [hc]; exact List.mem_cons_self a t
    have := normalize_filter_values_mono h a ha
    rw [he] at this
    cases this

theorem map_isEmpty {α β : Type} (f : α → β) (l : List α) :
    (l.map f).isEmpty = l.isEmpty := by
  cases l <;> rfl

/-- Per-axis monotonicity of a gate of the form `axis.isEmpty || pb` with a
monotone body: requires that an axis left unfiltered (empty) in the smaller
configuration stays unfiltered in the larger one — the counterexample shows
the gate is *not* monotone without this. -/
theorem gate_mono {axis axis' : List String} {pb pb' : Bool}
    (hne : axis.isEmpty = true → axis'.isEmpty = true)
    (hP : pb = true → pb' = true)
    (hg : (axis.isEmpty || pb) = true) : (axis'.isEmpty || pb') = true := by
  rcases Bool.or_eq_true_iff.mp hg with he | hp
  · rw [hne he]
    rfl
  · exact Bool.or_eq_true_iff.mpr (Or.inr (hP hp))

theorem any_imp {α : Type} {l : List α} {p q : α → Bool}
    (h : ∀ x, p x = true → q x = true) (ha : l.any p = true) : l.any q = true := by
  rw [List.any_eq_true] at ha ⊢
  obtain ⟨x, hx, hp⟩ := ha
  exact ⟨x, hx, h x hp⟩

theorem containsOrAny_mono {a a' : List String} (f : String → String)
    (hsub : ∀ x ∈ a, x ∈ a') (v : String) (p : String → Bool)
    (hp : ((a.map f).contains v || (a.map f).any p) = true) :
    ((a'.map f).contains v || (a'.map f).any p) = true := by
  rcases Bool.or_eq_true_iff.mp hp with h1 | h2
  · exact Bool.or_eq_true_iff.mpr (Or.inl (contains_mono (map_mono hsub f) v h1))
  · exact Bool.or_eq_true_iff.mpr (Or.inr (any_mono (map_mono hsub f) p h2))

/-- **C8 (amended)** — enlarging per-axis filter sets cannot shrink the set
of matching payloads, **provided** every axis left unfiltered (empty) in
the smaller configuration stays unfiltered in the larger one.  Without
that proviso the claim is false, because an empty axis means *no filter*
(match-all) and any non-empty superset of it filters.  Holds for EV
entries (`ev_matches`), arbitrage records (`arb_matches`) and grouped
raw-odds items (`filter_grouped_raw_odds`'s per-entry gates). -/
theorem C8_filter_monotonicity
    (s m b lg s' m' b' lg' : List String)
    (hs : ∀ x ∈ s, x ∈ s') (hm : ∀ x ∈ m, x ∈ m')
    (hb : ∀ x ∈ b, x ∈ b') (hl : ∀ x ∈ lg, x ∈ lg')
    (hse : (normalize_filter_values s).isEmpty = true →
      (normalize_filter_values s').isEmpty = true)
    (hme : (normalize_filter_values m).isEmpty = true →
      (normalize_filter_values m').isEmpty = true)
    (hbe : (normalize_filter_values b).isEmpty = true →
      (normalize_filter_values b').isEmpty = true)
    (hle : (normalize_filter_values lg).isEmpty = true →
      (normalize_filter_values lg').isEmpty = true)
    (e a : JVal) (book : String) (g o : JVal) :
    (ev_matches e (FilterSets.fromLists s m b lg) = true →
      ev_matches e (FilterSets.fromLists s' m' b' lg') = true) ∧
    (arb_matches a (FilterSets.fromLists s m b lg) = true →
      arb_matches a (FilterSets.fromLists s' m' b' lg') = true) ∧
    (rawOddsEntryKept (FilterSets.fromLists s m b lg) book g o = true →
      rawOddsEntryKept (FilterSets.fromLists s' m' b' lg') book g o = true) := by
  have hsN := normalize_filter_values_mono hs
  have hmN := normalize_filter_values_mono hm
  have hbN := normalize_filter_values_mono hb
  have hlN := normalize_filter_values_mono hl
  refine ⟨?_, ?_, ?_⟩
  · -- ev_matches
    intro hev
    cases e with
    | obj l =>
      simp only [ev_matches, FilterSets.fromLists] at hev ⊢
      simp only [Bool.and_eq_true] at hev
      obtain ⟨⟨⟨h1, h2⟩, h3⟩, h4⟩ := hev
      simp only [Bool.and_eq_true]
      refine ⟨⟨⟨?_, ?_⟩, ?_⟩, ?_⟩
      · exact gate_mono hse
          (fun hp => contains_mono hsN _ hp) h1
      · exact gate_mono hme
          (fun hp => containsOrAny_mono canon_market_text hmN _ _ hp) h2
      · exact gate_mono hbe
          (fun hp => containsOrAny_mono norm_clean hbN _ _ hp) h3
      · exact gate_mono hle
          (fun hp => any_mono (map_mono hlN norm_league_alias) _ hp) h4
    | null => cases hev
    | bool bb => cases hev
    | num q => cases hev
    | str ss => cases hev
    | arr ar => cases hev
  · -- arb_matches
    intro harb
    cases a with
    | obj l =>
      simp only [arb_matches, FilterSets.fromLists] at harb ⊢
      simp only [Bool.and_eq_true] at harb
      obtain ⟨⟨h1, h2⟩, h3⟩ := harb
      simp only [Bool.and_eq_true]
      refine ⟨⟨?_, ?_⟩, ?_⟩
      · exact gate_mono hse
          (fun hp => contains_mono hsN _ hp) h1
      · exact gate_mono hme
          (fun hp => containsOrAny_mono canon_market_text hmN _ _ hp) h2
      · refine gate_mono hbe (fun hp => ?_) h3
        cases harr : pyOr (jget l "outcomes") (.arr []) with
        | arr items =>
          rw [harr] at hp
          dsimp only at hp ⊢
          refine any_imp (fun x hx => ?_) hp
          cases x with
          | obj ol =>
            dsimp only at hx ⊢
            rcases Bool.or_eq_true_iff.mp hx with hc | ha2
            · exact Bool.or_eq_true_iff.mpr
                (Or.inl (contains_mono (map_mono hbN norm_clean) _ hc))
            · exact Bool.or_eq_true_iff.mpr
                (Or.inr (any_mono (map_mono hbN norm_clean) _ ha2))
          | null => exact absurd hx (by simp)
          | bool b2 => exact absurd hx (by simp)
          | num q2 => exact absurd hx (by simp)
          | str s2 => exact absurd hx (by simp)
          | arr a2 => exact absurd hx (by simp)
        | obj ol => rw [harr] at hp; exact absurd hp (by simp)
        | null => rw [harr] at hp; exact absurd hp (by simp)
        | bool b2 => rw [harr] at hp; exact absurd hp (by simp)
        | num q2 => rw [harr] at hp; exact absurd hp (by simp)
        | str s2 => rw [harr] at hp; exact absurd hp (by simp)
    | null => cases harb
    | bool bb => cases harb
    | num q => cases harb
    | str ss => cases harb
    | arr ar => cases harb
  · -- raw grouped odds entry
    intro hraw
    unfold rawOddsEntryKept at hraw ⊢
    simp only [Bool.and_eq_true] at hraw
    obtain ⟨⟨h1, h2⟩, h3⟩ := hraw
    simp only [Bool.and_eq_true]
    refine ⟨⟨?_, ?_⟩, ?_⟩
    · unfold book_match_fg at h1 ⊢
      simp only [FilterSets.fromLists] at h1 ⊢
      exact gate_mono hbe
        (fun hp => any_mono (map_mono hbN norm_clean) _ hp) h1
    · cases g with
      | obj gl =>
        simp only [Bool.and_eq_true] at h2
        obtain ⟨hg1, hg2⟩ := h2
        refine (Bool.and_eq_true _ _).mpr ⟨?_, ?_⟩
        · unfold sport_match_fg at hg1 ⊢
          simp only [FilterSets.fromLists] at hg1 ⊢
          exact gate_mono hse
            (fun hp => contains_mono hsN _ hp) hg1
        · unfold league_match_fg at hg2 ⊢
          simp only [FilterSets.fromLists] at hg2 ⊢
          exact gate_mono hle
            (fun hp => any_mono (map_mono hlN norm_league_alias) _ hp) hg2
      | null => cases h2
      | bool bb => cases h2
      | num q => cases h2
      | str ss => cases h2
      | arr ar => cases h2
    · cases o with
      | obj ol =>
        unfold market_match_fg at h3 ⊢
        simp only [FilterSets.fromLists] at h3 ⊢
        exact gate_mono hme (fun hp => any_mono hmN _ hp) h3
      | null => cases h3
      | bool bb => cases h3
      | num q => cases h3
      | str ss => cases h3
      | arr ar => cases h3

/-- **C8 counterexample** — with the empty configuration every axis set of
`F' = {sport: {tennis}}` is a superset of `F = {}`'s, yet a basketball EV
entry matches `F` (empty set = no filter) and not `F'`. -/
theorem C8_counterexample :
    (∀ x ∈ ([] : List String), x ∈ ["tennis"]) ∧
    ev_matches (.obj [("sport", .str "basketball")]) (FilterSets.fromLists [] [] [] []) = true ∧
    ev_matches (.obj [("sport", .str "basketball")])
      (FilterSets.fromLists ["tennis"] [] [] []) = false := by
  refine ⟨by simp, by decide, by decide⟩

/-- Witness for C8: growing `{tennis}` to `{tennis, basketball}` keeps a
tennis EV entry matching. -/
theorem C8_filter_monotonicity_witness :
    ev_matches (.obj [("sport", .str "tennis")])
      (FilterSets.fromLists ["tennis", "basketball"] [] [] []) = true :=
  (C8_filter_monotonicity ["tennis"] [] [] [] ["tennis", "basketball"] [] [] []
    (by decide) (by simp) (by simp) (by simp)
    (by decide) (by decide) (by decide) (by decide)
    (.obj [("sport", .str "tennis")]) .null "" .null .null).1 (by decide)

-- ## character-class facts

theorem alnum_word {c : Char} (h : isAlnumLower c = true) : isWordC c = true := by
  simp only [isAlnumLower, Bool.or_eq_true] at h
  simp only [isWordC, Bool.or_eq_true]
  rcases h with h | h
  · exact Or.inl (Or.inl (Or.inl h))
  · exact Or.inl (Or.inr h)

theorem alnum_not_upper {c : Char} (h : isAlnumLower c = true) : isUpperC c = false := by
  rw [Bool.eq_false_iff]
  intro hu
  simp only [isUpperC, Bool.and_eq_true, decide_eq_true_eq] at hu
  simp only [isAlnumLower, isLowerC, isDigitC, Bool.or_eq_true, Bool.and_eq_true,
    decide_eq_true_eq] at h
  rcases h with ⟨h1, _⟩ | ⟨_, h2⟩
  · exact absurd (le_trans h1 hu.2) (by decide)
  · exact absurd (le_trans hu.1 h2) (by decide)

theorem alnum_not_space {c : Char} (h : isAlnumLower c = true) : pySpace c = false := by
  rw [Bool.eq_false_iff]
  intro hs
  simp only [pySpace, Bool.or_eq_true, decide_eq_true_eq] at hs
  rcases hs with ((((h1 | h1) | h1) | h1) | h1) | h1 <;> subst h1 <;>
    exact absurd h (by decide)

theorem lowerC_alnum {c : Char} (h : isAlnumLower c = true) : lowerC c = c := by
  simp [lowerC, alnum_not_upper h]

-- ## stage identities on all-alnum input

theorem lowerL_id {y : List Char} (hy : ∀ c ∈ y, isAlnumLower c = true) : lowerL y = y := by
  unfold lowerL
  conv_rhs => rw [← List.map_id y]
  exact List.map_congr_left (fun c hc => lowerC_alnum (hy c hc))

theorem dropWhile_id_of_head {p : Char → Bool} {y : List Char}
    (hy : ∀ c ∈ y, p c = false) : y.dropWhile p = y := by
  cases y with
  | nil => rfl
  | cons c cs => simp [List.dropWhile_cons, hy c (by simp)]

theorem stripL_id {y : List Char} (hy : ∀ c ∈ y, isAlnumLower c = true) : stripL y = y := by
  unfold stripL
  rw [dropWhile_id_of_head (fun c hc => alnum_not_space (hy c hc))]
  rw [dropWhile_id_of_head (fun c hc => alnum_not_space (hy c (List.mem_reverse.mp hc)))]
  exact List.reverse_reverse y

-- ## substring membership as list infix

theorem containsSub_iff {p l : List Char} : containsSub p l = true ↔ p <:+: l := by
  induction l with
  | nil =>
    simp [containsSub, List.isPrefixOf_iff_prefix]
  | cons c cs ih =>
    simp only [containsSub, Bool.or_eq_true, List.isPrefixOf_iff_prefix, ih,
      List.infix_cons_iff]

theorem containsSub_mono {q p y : List Char} (hqp : containsSub q p = true)
    (hp : containsSub p y = true) : containsSub q y = true := by
  rw [containsSub_iff] at hqp hp ⊢
  exact hqp.trans hp

theorem not_contains_of_alnum {p y : List Char} (c0 : Char) (hc0 : c0 ∈ p)
    (hc0n : isAlnumLower c0 = false) (hy : ∀ c ∈ y, isAlnumLower c = true) :
    containsSub p y = false := by
  rw [Bool.eq_false_iff]
  intro hcon
  have hinf : p <:+: y := containsSub_iff.mp hcon
  have := hy c0 (hinf.subset hc0)
  rw [hc0n] at this
  cases this

-- ## str.replace is the identity without an occurrence

theorem pyRepAux_id {p r y : List Char} (h : containsSub p y = false) :
    pyRepAux p r 0 y = y := by
  induction y with
  | nil => rfl
  | cons c cs ih =>
    simp only [containsSub, Bool.or_eq_false_iff] at h
    unfold pyRepAux
    rw [if_neg (fun hcond => by rw [h.1] at hcond; exact absurd hcond.2 (by simp))]
    rw [ih h.2]

theorem pyReplace_id {p r y : List Char} (h : containsSub p y = false) :
    pyReplace p r y = y := pyRepAux_id h

-- ## re.sub is the identity when the matcher never fires

theorem subAllAux_id (m : Option Char → List Char → Option (List Char)) (r : List Char)
    {y : List Char} (prev : Option Char) (h0 : m prev y = none)
    (hs : ∀ c l', (c :: l') <:+ y → m (some c) l' = none) :
    subAllAux m r 0 prev y = y := by
  induction y generalizing prev with
  | nil => rfl
  | cons c cs ih =>
    unfold subAllAux
    rw [h0]
    rw [ih (some c) (hs c cs (List.suffix_refl _))
      (fun d l' hsuf => hs d l' (hsuf.trans (List.suffix_cons c cs)))]

theorem spaces1_none {l : List Char} (h : ∀ c ∈ l, pySpace c = false) :
    spaces1 l = none := by
  simp only [spaces1]
  rw [dropWhile_id_of_head h]
  simp

theorem litP_drop {pat l l1 : List Char} (h : litP pat l = some l1) :
    l1 = l.drop pat.length := by
  unfold litP at h
  split at h
  · simp only [Option.some.injEq] at h
    exact h.symm
  · cases h

theorem firstSome_some {α β : Type} {f : α → Option β} {xs : List α} {b : β}
    (h : firstSome f xs = some b) : ∃ a ∈ xs, f a = some b := by
  induction xs with
  | nil => cases h
  | cons a as ih =>
    unfold firstSome at h
    cases hfa : f a with
    | some b2 =>
      rw [hfa] at h
      simp only [Option.some.injEq] at h
      exact ⟨a, by simp, by rw [hfa, h]⟩
    | none =>
      rw [hfa] at h
      obtain ⟨a2, ha2, hfa2⟩ := ih h
      exact ⟨a2, by simp [ha2], hfa2⟩

theorem matchOrdinal_none {alts : List (List Char)} {word : List Char}
    {prev : Option Char} {l : List Char} (h : ∀ c ∈ l, pySpace c = false) :
    matchOrdinal alts word prev l = none := by
  unfold matchOrdinal
  cases hb : boundaryBefore prev with
  | false => simp
  | true =>
    simp only [if_true]
    cases hfs : firstSome (fun a => litP a l) alts with
    | none => rfl
    | some l1 =>
      obtain ⟨a, _, hla⟩ := firstSome_some hfs
      have hd : l1 = l.drop a.length := litP_drop hla
      have hl1 : ∀ c ∈ l1, pySpace c = false :=
        fun c hc => h c (List.drop_subset _ _ (hd ▸ hc))
      dsimp only
      rw [spaces1_none hl1]

theorem matchTok_none_word {tok l : List Char} {c : Char} (hc : isWordC c = true) :
    matchTok tok (some c) l = none := by
  simp [matchTok, boundaryBefore, hc]

theorem matchTok_none_top {tok y : List Char}
    (hy : ∀ c ∈ y, isAlnumLower c = true) (hne : y ≠ tok) :
    matchTok tok none y = none := by
  unfold matchTok
  simp only [boundaryBefore, if_true]
  cases hpre : litP tok y with
  | none => rfl
  | some rest =>
    have hd : rest = y.drop tok.length := litP_drop hpre
    have hprefix : tok.isPrefixOf y = true := by
      unfold litP at hpre
      split at hpre
      · assumption
      · cases hpre
    cases hr : rest with
    | nil =>
      exfalso
      apply hne
      have hlen : y.length ≤ tok.length := by
        have := hr ▸ hd
        exact List.drop_eq_nil_iff.mp this.symm
      have hpfx : tok <+: y := List.isPrefixOf_iff_prefix.mp hprefix
      exact (hpfx.eq_of_length (le_antisymm hpfx.length_le hlen)).symm
    | cons d ds =>
      have hdm : d ∈ y := by
        have : d ∈ y.drop tok.length := by rw [← hd, hr]; simp
        exact List.drop_subset _ _ this
      dsimp only
      simp only [boundaryAfter, alnum_word (hy d hdm)]
      simp

-- ## whole-stage wrappers

theorem subAll_ordinal_id (alts : List (List Char)) (word r : List Char)
    {y : List Char} (hns : ∀ c ∈ y, pySpace c = false) :
    subAll (matchOrdinal alts word) r none y = y :=
  subAllAux_id _ _ none (matchOrdinal_none hns)
    (fun c _ hsuf => matchOrdinal_none
      (fun d hd => hns d (hsuf.subset (List.mem_cons_of_mem c hd))))

theorem subAll_tok_id (tok r : List Char) {y : List Char}
    (hy : ∀ c ∈ y, isAlnumLower c = true) (hne : y ≠ tok) :
    subAll (matchTok tok) r none y = y :=
  subAllAux_id _ _ none (matchTok_none_top hy hne)
    (fun c l2 hsuf =>
      matchTok_none_word (alnum_word (hy c (hsuf.subset (List.mem_cons_self c l2)))))

-- ## canonList output facts and idempotence

theorem canonList_alnum (l : List Char) :
    ∀ c ∈ canonList l, isAlnumLower c = true := by
  intro c hc
  unfold canonList at hc
  exact (List.mem_filter.mp hc).2

theorem canonList_id {y : List Char}
    (hy : ∀ c ∈ y, isAlnumLower c = true)
    (hq : containsSub "quarter".toList y = false)
    (hh : containsSub "half".toList y = false)
    (hpt : containsSub "point".toList y = false)
    (hpts : containsSub "pts".toList y = false)
    (h1 : y ≠ "1h".toList) (h2 : y ≠ "2h".toList)
    (hq1 : y ≠ "q1".toList) (hq2 : y ≠ "q2".toList)
    (hq3 : y ≠ "q3".toList) (hq4 : y ≠ "q4".toList) :
    canonList y = y := by
  have hns : ∀ c ∈ y, pySpace c = false := fun c hc => alnum_not_space (hy c hc)
  have hpts2 : containsSub "points".toList y = false := by
    rw [Bool.eq_false_iff]
    intro hcon
    have := containsSub_mono (q := "point".toList) (by decide) hcon
    rw [hpt] at this
    cases this
  have http : containsSub "team total points".toList y = false :=
    not_contains_of_alnum ' ' (by decide) (by decide) hy
  have htp : containsSub "team points".toList y = false :=
    not_contains_of_alnum ' ' (by decide) (by decide) hy
  simp only [canonList]
  rw [lowerL_id hy, stripL_id hy]
  rw [subAll_ordinal_id _ _ _ hns, subAll_ordinal_id _ _ _ hns,
    subAll_ordinal_id _ _ _ hns, subAll_ordinal_id _ _ _ hns,
    subAll_ordinal_id _ _ _ hns, subAll_ordinal_id _ _ _ hns]
  rw [subAll_tok_id _ _ hy h1, subAll_tok_id _ _ hy h2,
    subAll_tok_id _ _ hy hq1, subAll_tok_id _ _ hy hq2,
    subAll_tok_id _ _ hy hq3, subAll_tok_id _ _ hy hq4]
  rw [pyReplace_id hq, pyReplace_id hh, pyReplace_id hpts2, pyReplace_id hpt,
    pyReplace_id hpts, pyReplace_id http, pyReplace_id htp]
  exact List.filter_eq_self.mpr hy

/-- **C7 counterexample** — canonicalisation is not idempotent:
`"1 h"` canonicalises to `"1h"`, which canonicalises again to `"h1"`
(the second pass now sees the token `\b1h\b`). -/
theorem C7_counterexample :
    canon_market_text (canon_market_text "1 h") ≠ canon_market_text "1 h" := by
  decide

/-- **C7 (amended)** — `canon_market_text` is idempotent on every input
whose canonical form contains none of the replace tokens `quarter`,
`half`, `point`, `pts` as a substring and is not the short token `1h` or
`2h`.  (The canonical forms `q1`–`q4` are genuine fixed points and need
no exclusion; `1h` and `2h` rewrite to `h1`/`h2` on a second pass, and a
canonical form containing e.g. `half` — reachable from `"h alf"` — gets
replaced on a second pass.) -/
theorem C7_canon_idempotent (x : String)
    (hq : containsSub "quarter".toList (canon_market_text x).data = false)
    (hh : containsSub "half".toList (canon_market_text x).data = false)
    (hpt : containsSub "point".toList (canon_market_text x).data = false)
    (hpts : containsSub "pts".toList (canon_market_text x).data = false)
    (h1 : canon_market_text x ≠ "1h") (h2 : canon_market_text x ≠ "2h") :
    canon_market_text (canon_market_text x) = canon_market_text x := by
  have hy : ∀ c ∈ canonList x.data, isAlnumLower c = true := canonList_alnum x.data
  simp only [canon_market_text] at hq hh hpt hpts h1 h2 ⊢
  refine congrArg (fun l => (⟨l⟩ : String)) ?_
  by_cases e1 : canonList x.data = "q1".toList
  · rw [e1]; decide
  by_cases e2 : canonList x.data = "q2".toList
  · rw [e2]; decide
  by_cases e3 : canonList x.data = "q3".toList
  · rw [e3]; decide
  by_cases e4 : canonList x.data = "q4".toList
  · rw [e4]; decide
  refine canonList_id hy hq hh hpt hpts ?_ ?_ e1 e2 e3 e4
  · intro he
    exact h1 (congrArg (fun l => (⟨l⟩ : String)) he)
  · intro he
    exact h2 (congrArg (fun l => (⟨l⟩ : String)) he)

/-- Witness for C7: `"moneyline"` is already canonical and idempotent. -/
theorem C7_canon_idempotent_witness :
    canon_market_text "moneyline" ≠ "1h" ∧
    canon_market_text (canon_market_text "moneyline") = canon_market_text "moneyline" :=
  ⟨by decide, C7_canon_idempotent "moneyline" (by decide) (by decide) (by decide)
    (by decide) (by decide) (by decide)⟩

end Predictable
